import Mathlib

/-!
Shallow embedding of the `glstsp` Guided-Local-Search TSP solver
(`src/sls/2/glstsp/src`), together with proofs about the embedded code.

Machine integers: the Rust code stores distances, penalties and costs in
`i32` and vertex indices in `usize`.  The claims under study are about
executions in which no 32-bit overflow occurs (the spec treats overflow as a
precondition violation), so sums and deltas are modelled with `Int` and
indices with `Nat`.

Floating point: the only floating-point operations in the core are
`f64::sqrt` in `Point::dist` and the products
`(factor * (p₁ + p₂) as f64) as i32` in `local_search_step`.  `Point.dist`
is modelled with `Nat.sqrt` (for the coordinate magnitudes of the test data
the truncated correctly-rounded `f64` square root of an exactly
representable integer radicand coincides with the integer square root), and
the penalty factors are modelled as integers, for which the `f64` product
and `as i32` truncation are exact; the program only ever calls the search
with factor `0.0`, where both models agree with the code exactly.
-/

set_option maxRecDepth 100000

/-- List indexing with default `0`, the shape in which every `usize` read of a
`Vec` appears below (all reads proved about are in bounds). -/
def getv (l : List Nat) (k : Nat) : Nat := l.getD k 0

/-- Integer-entry variant of `getv` for the flat matrix buffers. -/
def getz (l : List Int) (k : Nat) : Int := l.getD k 0

/-- Embeds `Vec::swap` from the twist loops: exchange the entries at positions
`i` and `j` (both reads happen before the writes, as in Rust). -/
def listSwap (l : List Nat) (i j : Nat) : List Nat :=
  (l.set i (l.getD j 0)).set j (l.getD i 0)

/-- Embeds `Point` (`types/point.rs`): two signed integer coordinates. -/
structure Point where
  x : Int
  y : Int
deriving DecidableEq

/-- Computes the integer square root (largest `k` with `k * k ≤ n`) by a plain
fold, so that it evaluates by kernel reduction on concrete inputs. -/
def natSqrt (n : Nat) : Nat :=
  (List.range (n + 1)).foldl (fun acc k => if k * k ≤ n then k else acc) 0

/-- Embeds `Point::dist`: integer-truncated Euclidean distance.  The Rust code
computes `f64::sqrt(((dx*dx)+(dy*dy)) as f64) as i32`; for a non-negative
integer radicand in `f64`'s exact range this truncation equals the integer
square root, which is how it is modelled. -/
def Point.dist (p q : Point) : Int :=
  let dx := p.x - q.x
  let dy := p.y - q.y
  Int.ofNat (natSqrt (dx * dx + dy * dy).toNat)

/-- Embeds `Route` (`types/route.rs`): a path (vector of vertex indices)
paired with a cached cost. -/
structure Route where
  path : List Nat
  cost : Int
deriving DecidableEq

/-- Embeds `GuidedLocalSearch` (`types/gls.rs`): the matrix size, the flat
row-major distance buffer `data`, and the flat penalty buffer `penalty`. -/
structure GuidedLocalSearch where
  size : Nat
  data : List Int
  penalty : List Int
deriving DecidableEq

/-- Embeds `GuidedLocalSearch::get_index`: row-major flat index `x*size + y`. -/
def GuidedLocalSearch.get_index (g : GuidedLocalSearch) (x y : Nat) : Nat :=
  x * g.size + y

/-- Embeds the `Index<(usize, usize)>` impl for `GuidedLocalSearch`:
`self[(x, y)]` reads the distance buffer at the flat index. -/
def GuidedLocalSearch.get (g : GuidedLocalSearch) (x y : Nat) : Int :=
  getz g.data (g.get_index x y)

/-- Embeds `GuidedLocalSearch::penalty(index)`: read of the penalty buffer at
the flat index. -/
def GuidedLocalSearch.penaltyAt (g : GuidedLocalSearch) (x y : Nat) : Int :=
  getz g.penalty (g.get_index x y)

/-- Embeds `GuidedLocalSearch::sum_edges`: sum the matrix entries of the
consecutive pairs of `edges`, plus the closing entry from the last element
back to the first.  (The `assert_eq!(edges.len(), self.size)` precondition
holds at every call proved about.) -/
def GuidedLocalSearch.sum_edges (g : GuidedLocalSearch) (edges : List Nat) : Int :=
  (List.zip edges edges.tail).foldl (fun d p => d + g.get p.1 p.2) 0
    + g.get (getv edges (edges.length - 1)) (getv edges 0)

/-- Embeds `Route::edges` / `Route::edge_from_vertices`: each vertex paired
with the next one, the last paired with the first. -/
def edgesList (l : List Nat) : List (Nat × Nat) :=
  l.zip (l.tail ++ [getv l 0])

/-- Embeds `Path::interpolate_edges` (`types/path.rs`): all pairs `(l[a], l[b])`
with `b ≥ a + 1 + skip`, in lexicographic `(a, b)` order. -/
def interpolate_edges (l : List Nat) (skip : Nat) : List (Nat × Nat) :=
  l.enum.flatMap (fun p => (l.drop (p.1 + 1 + skip)).map (fun w => (p.2, w)))

/-- Embeds the `i ≤ j` branch of `Path::twist`/`Route::twist`: the two-pointer
loop `while i < j { swap(i, j); i += 1; j -= 1 }`, translated with its
iteration count `(j - i + 1) / 2` as explicit recursion counter. -/
def twistInLoop : Nat → List Nat → Nat → Nat → List Nat
  | 0, l, _, _ => l
  | c + 1, l, i, j => twistInLoop c (listSwap l i j) (i + 1) (j - 1)

/-- Embeds the `i > j` branch of `Path::twist`/`Route::twist`: the wrap-around
loop `loop { swap(i, j); if i == middle break; i = (i+1)%len; j = (j+len-1)%len }`,
translated with the number of steps until `i` reaches `middle`
(`(middle + len - i) % len`) as explicit recursion counter; the loop body
always runs at least once. -/
def twistOutLoop : Nat → List Nat → Nat → Nat → List Nat
  | 0, l, i, j => listSwap l i j
  | c + 1, l, i, j =>
      twistOutLoop c (listSwap l i j) ((i + 1) % l.length) ((j + l.length - 1) % l.length)

/-- Embeds `Path::twist` (`types/path.rs`, also the path action of
`Route::twist`): reverse the cyclic segment from position `i` to position `j`
inclusive, with the wrap-around branch when `i > j`.  `segment_len` and
`middle` are computed exactly as in the source; the loops run for their
source-determined iteration counts. -/
def listTwist (l : List Nat) (i j : Nat) : List Nat :=
  if i ≤ j then
    twistInLoop ((j - i + 1) / 2) l i j
  else
    let len := l.length
    let segment_len := len - (i - j + 1)
    let middle := (i + segment_len / 2) % len
    twistOutLoop ((middle + len - i) % len) l i j

/-- Embeds `Route::twist`: apply the path twist and add `cost_change` to the
cached cost. -/
def Route.twist (r : Route) (i j : Nat) (cost_change : Int) : Route :=
  { path := listTwist r.path i j, cost := r.cost + cost_change }

/-- Embeds `Route::check_hamiltonian`/`is_hamiltonian` as a proposition: the
path visits each of the `n` vertices exactly once, i.e. it is a permutation
of `0, …, n-1`. -/
def isHamiltonianOf (l : List Nat) (n : Nat) : Prop :=
  l.Perm (List.range n)

instance (l : List Nat) (n : Nat) : Decidable (isHamiltonianOf l n) := by
  unfold isHamiltonianOf; infer_instance

example : listTwist [0, 1, 2, 3, 4, 5, 6, 7] 2 5 = [0, 1, 5, 4, 3, 2, 6, 7] := by decide

example : listTwist [0, 1, 2, 3, 4, 5, 6, 7] 5 2 = [7, 6, 5, 3, 4, 2, 1, 0] := by decide

example : listTwist [0, 1, 2, 3, 4, 5, 6, 7] 7 0 = [7, 1, 2, 3, 4, 5, 6, 0] := by decide

example : listTwist [0, 1, 2, 3, 4, 5, 6, 7] 3 2 = [5, 4, 3, 2, 1, 0, 7, 6] := by decide

example : listTwist [0, 1, 2, 3, 4, 5, 6, 7] 6 0 = [6, 1, 2, 3, 4, 5, 0, 7] := by decide

example : listTwist [0, 1, 2, 3, 4, 5, 6, 7] 0 7 = [7, 6, 5, 4, 3, 2, 1, 0] := by decide

example : interpolate_edges [2, 0, 1, 3] 1 = [(2, 1), (2, 3), (0, 3)] := by decide

example : edgesList [2, 0, 1, 3] = [(2, 0), (0, 1), (1, 3), (3, 2)] := by decide

/-- Embeds `Iterator::min_by` as used in `nearest_neighbor`: a fold over the
enumerated remainder list that replaces the running minimum only when the new
value is strictly smaller, so the first minimum wins ties (Rust's
`min_by` keeps the earlier element unless the comparison is `Greater`). -/
def minByRust (f : Nat → Int) : List (Nat × Nat) → Option (Nat × Nat)
  | [] => none
  | p :: rest => some (rest.foldl (fun x y => if f y.2 < f x.2 then y else x) p)

/-- Embeds the loop body sequence of `GuidedLocalSearch::nearest_neighbor`
(`for i in 0..size-1`), with the remaining iteration count as recursion
counter: pick the first minimiser of `self[(i, n)]` over the enumerated
`remainders`, remove it, and write it to `res[i + 1]`.  The `unwrap` on an
empty remainder list (which cannot happen) is modelled by returning `res`. -/
def nnAux (g : GuidedLocalSearch) : Nat → Nat → List Nat → List Nat → List Nat
  | 0, _, _, res => res
  | steps + 1, i, remainders, res =>
      match minByRust (fun n => g.get i n) remainders.enum with
      | none => res
      | some (remainder, neighbor) =>
          nnAux g steps (i + 1) (remainders.eraseIdx remainder)
            (res.set (i + 1) neighbor)

/-- Embeds `GuidedLocalSearch::nearest_neighbor`: start from `res = [0; size]`
and `remainders = (1..size)`, run the selection loop `size - 1` times, and
return the route with `sum_edges` of the result as cost. -/
def GuidedLocalSearch.nearest_neighbor (g : GuidedLocalSearch) : Route :=
  let res := nnAux g (g.size - 1) 0 (List.range' 1 (g.size - 1))
    (List.replicate g.size 0)
  { path := res, cost := g.sum_edges res }

/-- Embeds the `cost_change` computation of
`GuidedLocalSearch::local_search_step` for route positions `i` and `j`:
`cost_change_increased - cost_change_decreased`, where the Rust
penalty terms `(factor * (p₁ + p₂) as f64) as i32` are modelled with integer
factors (exact for the integral factors the program uses; the program itself
only passes `0.0`). -/
def costChange (g : GuidedLocalSearch) (r : Route) (i j : Nat)
    (old_penalty_factor penalty_factor : Int) : Int :=
  let len := r.path.length
  let i_next := (i + 1) % len
  let j_next := (j + 1) % len
  let i_vertex := getv r.path i
  let i_vertex_next := getv r.path i_next
  let j_vertex := getv r.path j
  let j_vertex_next := getv r.path j_next
  (g.get i_vertex j_vertex + g.get i_vertex_next j_vertex_next
      + penalty_factor * (g.penaltyAt i_vertex j_vertex
          + g.penaltyAt i_vertex_next j_vertex_next))
    - (g.get i_vertex i_vertex_next + g.get j_vertex j_vertex_next
      + old_penalty_factor * (g.penaltyAt i_vertex i_vertex_next
          + g.penaltyAt j_vertex j_vertex_next))

/-- Embeds the inner loop of `local_search_step`
(`for j in neighborhood.iter().skip(a + 2)`): scan the remaining neighbourhood
elements in order; at the first `j` whose `cost_change` is negative, apply
`candidate.twist(i_next, j, cost_change)` and return the change. -/
def innerLoop (g : GuidedLocalSearch) (r : Route) (i : Nat)
    (old_penalty_factor penalty_factor : Int) :
    List Nat → Option (Route × Int)
  | [] => none
  | j :: rest =>
      let cc := costChange g r i j old_penalty_factor penalty_factor
      if cc < 0 then
        some (r.twist ((i + 1) % r.path.length) j cc, cc)
      else innerLoop g r i old_penalty_factor penalty_factor rest

/-- Embeds the outer loop of `local_search_step`
(`for i in 0..neighborhood.len()`), with the remaining iteration count as
recursion counter: for outer index `a` the scanned route position is
`neighborhood[a]` and the inner scan runs over `neighborhood[a+2..]`. -/
def outerLoop (g : GuidedLocalSearch) (r : Route) (neighborhood : List Nat)
    (old_penalty_factor penalty_factor : Int) :
    Nat → Nat → Option (Route × Int)
  | 0, _ => none
  | count + 1, a =>
      match innerLoop g r (getv neighborhood a) old_penalty_factor
          penalty_factor (neighborhood.drop (a + 2)) with
      | some res => some res
      | none => outerLoop g r neighborhood old_penalty_factor penalty_factor count (a + 1)

/-- Embeds `GuidedLocalSearch::local_search_step`: scan the pairs of the
neighbourhood; on the first improving pair the twisted route and its (negative)
cost change are returned, otherwise the route is unchanged and the returned
change is `0`. -/
def local_search_step (g : GuidedLocalSearch) (r : Route) (neighborhood : List Nat)
    (old_penalty_factor penalty_factor : Int) : Route × Int :=
  match outerLoop g r neighborhood old_penalty_factor penalty_factor
      neighborhood.length 0 with
  | some res => res
  | none => (r, 0)

/-- Embeds `GuidedLocalSearch::local_search`
(`loop { change = step(..); if change == 0 break }`) with an explicit fuel
bound on the number of loop iterations; `none` means the loop did not finish
within `fuel` steps. -/
def local_searchN (g : GuidedLocalSearch) :
    Nat → Route → List Nat → Int → Int → Option Route
  | 0, _, _, _, _ => none
  | fuel + 1, r, neighborhood, old_penalty_factor, penalty_factor =>
      let s := local_search_step g r neighborhood old_penalty_factor penalty_factor
      if s.2 = 0 then some s.1
      else local_searchN g fuel s.1 neighborhood old_penalty_factor penalty_factor

/-- Embeds the `max_utility` computation of `GuidedLocalSearch::solve`:
maximum over the tour edges of `self[vertex] / (1 + self.penalty(vertex))`
(`i32` division, truncation toward zero, hence `Int.div`). -/
def maxUtility (g : GuidedLocalSearch) (r : Route) : Option Int :=
  ((edgesList r.path).map
    (fun v => Int.tdiv (g.get v.1 v.2) (1 + g.penaltyAt v.1 v.2))).max?

/-- Embeds `GuidedLocalSearch::solve` after the RNG shuffle: the shuffled
`neighborhood` is passed in explicitly (the Mersenne-Twister generator and
`SliceRandom::shuffle` are external crates; see `shuffleModel`).  The body
builds the nearest-neighbour route, runs one local search with both penalty
factors `0.0`, computes `max_utility` (whose value is only printed), and
returns the route.  `fuel` bounds the local-search loop as in
`local_searchN`. -/
def GuidedLocalSearch.solveWithOrder (g : GuidedLocalSearch)
    (neighborhood : List Nat) (fuel : Nat) : Option Route :=
  match local_searchN g fuel g.nearest_neighbor neighborhood 0 0 with
  | none => none
  | some route =>
      let _max_utility := maxUtility g route
      some route

/-- Modelled from the spec: the seeding of the 64-bit Mersenne-Twister PRNG
lives in the external `rand_mt` crate and is not part of this repository; the
generator is modelled by a 64-bit linear-congruential step, which keeps the
property the spec relies on — the stream is a deterministic function of the
seed. -/
def lcg (s : Nat) : Nat := (s * 6364136223846793005 + 1442695040888963407) % (2 ^ 64)

/-- Modelled from the spec: `SliceRandom::shuffle` (external `rand` crate) is
the standard Fisher–Yates shuffle driven by the seeded generator; modelled
with the `lcg` stream.  `k + 1` is the position being filled. -/
def fisherYates : Nat → Nat → List Nat → List Nat
  | 0, _, l => l
  | k + 1, s, l =>
      let s' := lcg s
      fisherYates k s' (listSwap l (k + 1) (s' % (k + 2)))

/-- Modelled from the spec: the shuffled neighbourhood order of
`GuidedLocalSearch::solve` — a deterministic permutation of `0, …, size-1`
computed from the seed alone. -/
def shuffleModel (size seed : Nat) : List Nat :=
  fisherYates (size - 1) seed (List.range size)

/-- Embeds `GuidedLocalSearch::new`: `assert!(size > 0)` (a plain `assert!`,
active in release builds too) is modelled by returning `none` for an empty
point list; otherwise the distance buffer is filled symmetrically with the
pairwise point distances and the penalty buffer starts at zero. -/
def glsData (points : List Point) : List Int :=
  let size := points.length
  (List.range size).foldl
    (fun m i =>
      (List.range' (i + 1) (size - (i + 1))).foldl
        (fun m' j =>
          let dist := Point.dist (points.getD i ⟨0, 0⟩) (points.getD j ⟨0, 0⟩)
          ((m'.set (i * size + j) dist).set (j * size + i) dist))
        m)
    (List.replicate (size * size) 0)

/-- Embeds `GuidedLocalSearch::new` (see `glsData` for the loop). -/
def glsNew (points : List Point) : Option GuidedLocalSearch :=
  if points.length = 0 then none
  else some
    { size := points.length
      data := glsData points
      penalty := List.replicate (points.length * points.length) 0 }

/-- Embeds the full `solve` entry point: build the solver from the points,
shuffle the neighbourhood from the seed, and run `solveWithOrder`. -/
def solveFromPoints (points : List Point) (seed : Nat) (fuel : Nat) : Option Route :=
  match glsNew points with
  | none => none
  | some g => g.solveWithOrder (shuffleModel g.size seed) fuel

example : (glsNew [⟨0,0⟩, ⟨0,10⟩, ⟨10,10⟩, ⟨10,0⟩]).map (fun g => g.data) =
    some [0, 10, 14, 10, 10, 0, 10, 14, 14, 10, 0, 10, 10, 14, 10, 0] := by decide

example : (glsNew [⟨0,0⟩, ⟨0,10⟩, ⟨10,10⟩, ⟨10,0⟩]).map
    (fun g => g.nearest_neighbor) = some ⟨[0, 1, 2, 3], 40⟩ := by decide

/-- Sum of a cost function over the consecutive pairs of a vertex sequence
(no closing edge); reference form used to reason about `sum_edges`. -/
def pathSumF (f : Nat → Nat → Int) : List Nat → Int
  | [] => 0
  | [_] => 0
  | x :: y :: rest => f x y + pathSumF f (y :: rest)

/-- Sum of a cost function over the edges of the cycle described by `l`
(consecutive pairs plus the closing edge); reference form of the tour cost. -/
def cycSumF (f : Nat → Nat → Int) (l : List Nat) : Int :=
  match l with
  | [] => 0
  | x :: _ => pathSumF f (l ++ [x])

/-- Left rotation of a list by `s` positions; proof-side device used to reduce
the wrap-around reversal to a prefix reversal. -/
def rotl (s : Nat) (l : List Nat) : List Nat := l.drop s ++ l.take s

/-- Penalised edge cost `c(a,b) = distance[a,b] + λ·penalty[a,b]` (spec §4.5),
with an integer penalty factor. -/
def penEdge (g : GuidedLocalSearch) (lam : Int) (x y : Nat) : Int :=
  g.get x y + lam * g.penaltyAt x y

/-- Penalised total tour cost of a path. -/
def penCost (g : GuidedLocalSearch) (lam : Int) (l : List Nat) : Int :=
  cycSumF (penEdge g lam) l

/-- Reference form (spec §4.5, steps 2–3) of the move evaluation: the delta
`(c(a,b) + c(a',b')) − (c(a,a') + c(b,b'))` of replacing the tour edges at
route positions `i` and `j` under the penalised edge cost `c`. -/
def deltaSpec (g : GuidedLocalSearch) (lam : Int) (r : Route) (i j : Nat) : Int :=
  let len := r.path.length
  let a := getv r.path i
  let a2 := getv r.path ((i + 1) % len)
  let b := getv r.path j
  let b2 := getv r.path ((j + 1) % len)
  (penEdge g lam a b + penEdge g lam a2 b2) - (penEdge g lam a a2 + penEdge g lam b b2)

/-- Reference form (spec §4.5, steps 1–4) of the scan: the first pair of
`order.interpolate_edges(skip = 1)`, in the prescribed lexicographic order,
whose delta is negative. -/
def scanFirstSpec (g : GuidedLocalSearch) (lam : Int) (r : Route)
    (order : List Nat) : Option (Nat × Nat) :=
  (interpolate_edges order 1).find? (fun p => decide (deltaSpec g lam r p.1 p.2 < 0))

/-- Symmetry of the distance matrix on in-range vertices. -/
def distSymm (g : GuidedLocalSearch) : Prop :=
  ∀ x y, x < g.size → y < g.size → g.get x y = g.get y x

/-- Symmetry of the penalty matrix on in-range vertices. -/
def penSymm (g : GuidedLocalSearch) : Prop :=
  ∀ x y, x < g.size → y < g.size → g.penaltyAt x y = g.penaltyAt y x

/-- Modelled from the spec (§4.4): the smallest index of the
remaining-candidates list achieving the minimum of `f` — ties broken in
favour of the smallest remaining-list index. -/
def firstMinIdx (f : Nat → Int) : List Nat → Nat
  | [] => 0
  | [_] => 0
  | v :: w :: tl =>
      let r := firstMinIdx f (w :: tl)
      if f ((w :: tl).getD r 0) < f v then r + 1 else 0

/-- Modelled from the spec (§4.4): the nearest-neighbour selection loop in the
spec's own words — at loop index `i`, pick among the remaining candidates the
first one minimising the matrix entry in row `i` (the loop counter itself, not
the previously chosen vertex), remove it, and write it to `tour[i + 1]`. -/
def nnSpecAux (g : GuidedLocalSearch) : Nat → Nat → List Nat → List Nat → List Nat
  | 0, _, _, res => res
  | _ + 1, _, [], res => res
  | steps + 1, i, v :: tl, res =>
      let idx := firstMinIdx (fun n => g.get i n) (v :: tl)
      nnSpecAux g steps (i + 1) ((v :: tl).eraseIdx idx)
        (res.set (i + 1) ((v :: tl).getD idx 0))

/-- Modelled from the spec (§4.4): the whole nearest-neighbour tour in the
spec's words, starting from `tour = [0; size]` and the candidate list
`1, …, size − 1`. -/
def nearestNeighborSpecPath (g : GuidedLocalSearch) : List Nat :=
  nnSpecAux g (g.size - 1) 0 (List.range' 1 (g.size - 1))
    (List.replicate g.size 0)

/-- Concrete 4-point instance (a 10×10 square) used to exercise the solver. -/
def pts4 : List Point := [⟨0, 0⟩, ⟨0, 10⟩, ⟨10, 10⟩, ⟨10, 0⟩]

/-- The solver `glsNew pts4` builds (checked by `decide` in the witnesses). -/
def gls4 : GuidedLocalSearch :=
  { size := 4
    data := [0, 10, 14, 10, 10, 0, 10, 14, 14, 10, 0, 10, 10, 14, 10, 0]
    penalty := List.replicate 16 0 }

/-- The route `solveFromPoints pts4 1 16` returns. -/
def rSolved : Route := { path := [0, 1, 2, 3], cost := 40 }

/-- A 4-city instance whose local search, run with the neighbourhood order
`[0, 2, 1, 3]`, terminates on a tour that still admits an improving 2-opt
exchange (the scan with `skip = 1` never pairs order-adjacent positions). -/
def gExC3 : GuidedLocalSearch :=
  { size := 4
    data := [0, 10, 1, 5, 10, 0, 5, 1, 1, 5, 0, 10, 5, 1, 10, 0]
    penalty := List.replicate 16 0 }

/-- The starting (and returned) route of the `gExC3` search. -/
def rExC3 : Route := { path := [0, 1, 2, 3], cost := 30 }

theorem length_listSwap (l : List Nat) (i j : Nat) :
    (listSwap l i j).length = l.length := by
  simp [listSwap]

theorem getv_set (l : List Nat) (i v k : Nat) :
    getv (l.set i v) k = if i = k ∧ i < l.length then v else getv l k := by
  simp only [getv, List.getD_eq_getElem?_getD, List.getElem?_set]
  by_cases h1 : i = k
  · subst h1
    by_cases h2 : i < l.length
    · simp [h2]
    · simp [h2, List.getElem?_eq_none (by omega : l.length ≤ i)]
  · simp [h1]

theorem getv_listSwap (l : List Nat) (i j k : Nat) (hi : i < l.length)
    (hj : j < l.length) :
    getv (listSwap l i j) k =
      if k = i then getv l j else if k = j then getv l i else getv l k := by
  have hlen : (l.set i (l.getD j 0)).length = l.length := by simp
  rw [listSwap, getv_set, hlen, getv_set]
  by_cases hkj : k = j
  · rw [if_pos ⟨hkj.symm, hj⟩]
    by_cases hki : k = i
    · rw [if_pos hki]
      have hij : i = j := hki.symm.trans hkj
      rw [hij]; rfl
    · rw [if_neg hki, if_pos hkj]; rfl
  · rw [if_neg (fun h => hkj h.1.symm)]
    by_cases hki : k = i
    · rw [if_pos ⟨hki.symm, hi⟩, if_pos hki]; rfl
    · rw [if_neg (fun h => hki h.1.symm), if_neg hki, if_neg hkj]

theorem listSwap_perm (l : List Nat) (i j : Nat) (hi : i < l.length)
    (hj : j < l.length) : (listSwap l i j).Perm l := by
  rw [List.perm_iff_count]
  intro b
  have hj' : j < (l.set i (l.getD j 0)).length := by simpa using hj
  rw [listSwap, List.count_set _ _ _ _ hj', List.count_set _ _ _ _ hi]
  have h1 : getElem (l.set i (l.getD j 0)) j hj' = getElem l j hj := by
    rw [List.getElem_set]
    split
    · next h => subst h; exact List.getD_eq_getElem l 0 hj
    · rfl
  have e1 : l.getD j 0 = getElem l j hj := List.getD_eq_getElem l 0 hj
  have e2 : l.getD i 0 = getElem l i hi := List.getD_eq_getElem l 0 hi
  have hci : getElem l i hi = b → 1 ≤ List.count b l := by
    intro h
    exact List.count_pos_iff.mpr (h ▸ List.getElem_mem hi)
  rw [h1]
  simp only [e1, e2, beq_iff_eq]
  by_cases hbi : getElem l i hi = b <;> by_cases hbj : getElem l j hj = b <;>
    simp only [hbi, hbj, if_true, if_false, if_pos, if_neg] <;>
    first
      | (have hcnt := hci hbi; omega)
      | omega

theorem length_twistInLoop : ∀ (c : Nat) (l : List Nat) (i j : Nat),
    (twistInLoop c l i j).length = l.length := by
  intro c
  induction c with
  | zero => intro l i j; rfl
  | succ c ih =>
      intro l i j
      rw [twistInLoop, ih, length_listSwap]

theorem length_twistOutLoop : ∀ (c : Nat) (l : List Nat) (i j : Nat),
    (twistOutLoop c l i j).length = l.length := by
  intro c
  induction c with
  | zero => intro l i j; exact length_listSwap l i j
  | succ c ih =>
      intro l i j
      rw [twistOutLoop, ih, length_listSwap]

theorem length_listTwist (l : List Nat) (i j : Nat) :
    (listTwist l i j).length = l.length := by
  rw [listTwist]
  split
  · exact length_twistInLoop _ l i j
  · exact length_twistOutLoop _ l i j

theorem twistInLoop_perm : ∀ (c : Nat) (l : List Nat) (i j : Nat),
    i + c ≤ l.length → j < l.length → (twistInLoop c l i j).Perm l := by
  intro c
  induction c with
  | zero => intro l i j _ _; exact List.Perm.refl l
  | succ c ih =>
      intro l i j hi hj
      have hi' : i < l.length := by omega
      have hs := length_listSwap l i j
      refine ((ih (listSwap l i j) (i + 1) (j - 1) (by omega) (by omega)).trans
        (listSwap_perm l i j hi' hj))

theorem twistOutLoop_perm : ∀ (c : Nat) (l : List Nat) (i j : Nat),
    i < l.length → j < l.length → (twistOutLoop c l i j).Perm l := by
  intro c
  induction c with
  | zero => intro l i j hi hj; exact listSwap_perm l i j hi hj
  | succ c ih =>
      intro l i j hi hj
      have hpos : 0 < l.length := by omega
      have hs := length_listSwap l i j
      refine ((ih (listSwap l i j) ((i + 1) % l.length) ((j + l.length - 1) % l.length)
        (by rw [hs]; exact Nat.mod_lt _ hpos) (by rw [hs]; exact Nat.mod_lt _ hpos)).trans
        (listSwap_perm l i j hi hj))

theorem listTwist_perm (l : List Nat) (i j : Nat) (hi : i < l.length)
    (hj : j < l.length) : (listTwist l i j).Perm l := by
  rw [listTwist]
  split
  · next hle =>
      exact twistInLoop_perm _ l i j (by omega) hj
  · next hgt =>
      exact twistOutLoop_perm _ l i j hi hj

theorem fisherYates_perm : ∀ (k : Nat) (s : Nat) (l : List Nat),
    k < l.length → (fisherYates k s l).Perm l := by
  intro k
  induction k with
  | zero => intro s l _; exact List.Perm.refl l
  | succ k ih =>
      intro s l hk
      have hs := length_listSwap l (k + 1) (lcg s % (k + 2))
      have hj : lcg s % (k + 2) < l.length := by
        have := Nat.mod_lt (lcg s) (show 0 < k + 2 by omega)
        omega
      exact ((ih (lcg s) (listSwap l (k + 1) (lcg s % (k + 2))) (by omega)).trans
        (listSwap_perm l (k + 1) (lcg s % (k + 2)) hk hj))

theorem shuffleModel_perm (size seed : Nat) :
    (shuffleModel size seed).Perm (List.range size) := by
  rw [shuffleModel]
  rcases Nat.eq_zero_or_pos size with h | h
  · subst h; exact List.Perm.refl _
  · exact fisherYates_perm (size - 1) seed (List.range size)
      (by rw [List.length_range]; omega)

theorem mod_cases2 (N x : Nat) (hN : 0 < N) (hx : x < 2 * N) :
    x % N = x ∧ x < N ∨ x % N = x - N ∧ N ≤ x := by
  rcases Nat.lt_or_ge x N with h | h
  · exact Or.inl ⟨Nat.mod_eq_of_lt h, h⟩
  · refine Or.inr ⟨?_, h⟩
    rw [Nat.mod_eq_sub_mod h, Nat.mod_eq_of_lt (by omega)]

theorem mod_cases3 (N x : Nat) (hN : 0 < N) (hx : x < 3 * N) :
    x % N = x ∧ x < N ∨ x % N = x - N ∧ N ≤ x ∧ x < 2 * N ∨
      x % N = x - 2 * N ∧ 2 * N ≤ x := by
  rcases Nat.lt_or_ge x N with h | h
  · exact Or.inl ⟨Nat.mod_eq_of_lt h, h⟩
  · rcases Nat.lt_or_ge x (2 * N) with h2 | h2
    · refine Or.inr (Or.inl ⟨?_, h, h2⟩)
      rw [Nat.mod_eq_sub_mod h, Nat.mod_eq_of_lt (by omega)]
    · refine Or.inr (Or.inr ⟨?_, h2⟩)
      rw [Nat.mod_eq_sub_mod h, Nat.mod_eq_sub_mod (by omega), Nat.mod_eq_of_lt (by omega)]
      omega

theorem cdist_eq_zero_iff (N a b : Nat) (ha : a < N) (hb : b < N) :
    (b + N - a) % N = 0 ↔ a = b := by
  rcases mod_cases2 N (b + N - a) (by omega) (by omega) with ⟨h, h'⟩ | ⟨h, h'⟩ <;> omega

theorem cdist_sum (N i j k : Nat) (hi : i < N) (hj : j < N) (hk : k < N) :
    (k + N - i) % N + (j + N - k) % N = (j + N - i) % N ∨
      (k + N - i) % N + (j + N - k) % N = (j + N - i) % N + N := by
  rcases mod_cases2 N (k + N - i) (by omega) (by omega) with ⟨h1, h1'⟩ | ⟨h1, h1'⟩ <;>
    rcases mod_cases2 N (j + N - k) (by omega) (by omega) with ⟨h2, h2'⟩ | ⟨h2, h2'⟩ <;>
      rcases mod_cases2 N (j + N - i) (by omega) (by omega) with ⟨h3, h3'⟩ | ⟨h3, h3'⟩ <;>
        omega

theorem twistInLoop_getv : ∀ (c : Nat) (l : List Nat) (i j : Nat),
    i ≤ j → j < l.length → c = (j - i + 1) / 2 →
    ∀ k, getv (twistInLoop c l i j) k =
      if i ≤ k ∧ k ≤ j then getv l (i + j - k) else getv l k := by
  intro c
  induction c with
  | zero =>
      intro l i j hij hj hc k
      have : i = j := by omega
      subst this
      rw [twistInLoop]
      split
    <;> first
        | (next h => exact congrArg (getv l) (by omega))
        | rfl
  | succ c ih =>
      intro l i j hij hj hc k
      have hi : i < l.length := by omega
      by_cases hji : j = i + 1
      · have hc0 : c = 0 := by omega
        subst hc0
        rw [twistInLoop, twistInLoop,
          getv_listSwap l i j k hi hj]
        split_ifs <;>
          first
            | exact congrArg (getv l) (by omega)
            | omega
            | rfl
      · have hlen : (listSwap l i j).length = l.length := length_listSwap l i j
        rw [twistInLoop, ih (listSwap l i j) (i + 1) (j - 1) (by omega) (by omega)
          (by omega)]
        rw [getv_listSwap l i j ((i + 1) + (j - 1) - k) hi hj,
          getv_listSwap l i j k hi hj]
        split_ifs <;>
          first
            | exact congrArg (getv l) (by omega)
            | omega
            | rfl

theorem cdist_succ_i (N i k : Nat) (hN : 0 < N) (hi : i < N) (hk : k < N) :
    ((k + N - (i + 1) % N) % N = (k + N - i) % N - 1 ∧ 1 ≤ (k + N - i) % N) ∨
      ((k + N - (i + 1) % N) % N = N - 1 ∧ (k + N - i) % N = 0) := by
  have hA : (i + 1) % N < N := Nat.mod_lt _ hN
  rcases mod_cases2 N (i + 1) hN (by omega) with ⟨h1, h1'⟩ | ⟨h1, h1'⟩ <;>
    rcases mod_cases2 N (k + N - (i + 1) % N) hN (by omega) with ⟨h2, h2'⟩ | ⟨h2, h2'⟩ <;>
      rcases mod_cases2 N (k + N - i) hN (by omega) with ⟨h3, h3'⟩ | ⟨h3, h3'⟩ <;>
        omega

theorem cdist_pred_j (N j k : Nat) (hN : 0 < N) (hj : j < N) (hk : k < N) :
    (((j + N - 1) % N + N - k) % N = (j + N - k) % N - 1 ∧ 1 ≤ (j + N - k) % N) ∨
      (((j + N - 1) % N + N - k) % N = N - 1 ∧ (j + N - k) % N = 0) := by
  have hB : (j + N - 1) % N < N := Nat.mod_lt _ hN
  rcases mod_cases2 N (j + N - 1) hN (by omega) with ⟨h1, h1'⟩ | ⟨h1, h1'⟩ <;>
    rcases mod_cases2 N ((j + N - 1) % N + N - k) hN (by omega) with ⟨h2, h2'⟩ | ⟨h2, h2'⟩ <;>
      rcases mod_cases2 N (j + N - k) hN (by omega) with ⟨h3, h3'⟩ | ⟨h3, h3'⟩ <;>
        omega

theorem mirror_shift (N i j k : Nat) (hN : 0 < N) (hi : i < N) (hj : j < N)
    (hk : k < N) :
    ((i + 1) % N + (j + N - 1) % N + N - k) % N = (i + j + N - k) % N := by
  have hA : (i + 1) % N < N := Nat.mod_lt _ hN
  have hB : (j + N - 1) % N < N := Nat.mod_lt _ hN
  rcases mod_cases2 N (i + 1) hN (by omega) with ⟨h1, h1'⟩ | ⟨h1, h1'⟩ <;>
    rcases mod_cases2 N (j + N - 1) hN (by omega) with ⟨h2, h2'⟩ | ⟨h2, h2'⟩ <;>
      rcases mod_cases3 N ((i + 1) % N + (j + N - 1) % N + N - k) hN (by omega)
          with ⟨h3, h3'⟩ | ⟨h3, h3', h3''⟩ | ⟨h3, h3'⟩ <;>
        rcases mod_cases3 N (i + j + N - k) hN (by omega)
            with ⟨h4, h4'⟩ | ⟨h4, h4', h4''⟩ | ⟨h4, h4'⟩ <;>
          omega

set_option maxHeartbeats 1000000 in
theorem twistOutLoop_getv : ∀ (c : Nat) (l : List Nat) (i j : Nat),
    i < l.length → j < l.length →
    2 * c + 1 ≤ (j + l.length - i) % l.length →
    (j + l.length - i) % l.length ≤ 2 * c + 2 →
    ∀ k, k < l.length →
      getv (twistOutLoop c l i j) k =
        if (k + l.length - i) % l.length ≤ c ∨ (j + l.length - k) % l.length ≤ c
        then getv l ((i + j + l.length - k) % l.length)
        else getv l k := by
  intro c
  induction c with
  | zero =>
      intro l i j hi hj hD1 hD2 k hk
      have hN : 0 < l.length := by omega
      have hm := mod_cases3 l.length (i + j + l.length - k) hN (by omega)
      have h1 := mod_cases2 l.length (k + l.length - i) hN (by omega)
      have h2 := mod_cases2 l.length (j + l.length - k) hN (by omega)
      have h3 := mod_cases2 l.length (j + l.length - i) hN (by omega)
      rw [twistOutLoop, getv_listSwap l i j k hi hj]
      by_cases hki : k = i
      · have eM : (i + j + l.length - k) % l.length = j := by
          clear h1 h2 h3 hD1 hD2; omega
        rw [if_pos hki, if_pos (Or.inl (by clear hm h2 h3 hD1 hD2; omega :
          (k + l.length - i) % l.length ≤ 0)), eM]
      · by_cases hkj : k = j
        · have eM : (i + j + l.length - k) % l.length = i := by
            clear h1 h2 h3 hD1 hD2; omega
          rw [if_neg hki, if_pos hkj, if_pos (Or.inr (by clear hm h1 h3 hD1 hD2; omega :
            (j + l.length - k) % l.length ≤ 0)), eM]
        · rw [if_neg hki, if_neg hkj, if_neg (by clear hm h3 hD1 hD2; omega :
            ¬((k + l.length - i) % l.length ≤ 0 ∨ (j + l.length - k) % l.length ≤ 0))]
  | succ c ih =>
      intro l i j hi hj hD1 hD2 k hk
      have hN : 0 < l.length := by omega
      have hlen := length_listSwap l i j
      have hi' : (i + 1) % l.length < l.length := Nat.mod_lt _ hN
      have hj' : (j + l.length - 1) % l.length < l.length := Nat.mod_lt _ hN
      have hDlt : (j + l.length - i) % l.length < l.length := Nat.mod_lt _ hN
      have hd1 := cdist_pred_j l.length j i hN hj hi
      have hd2 := cdist_succ_i l.length i ((j + l.length - 1) % l.length) hN hi hj'
      have hDp : ((j + l.length - 1) % l.length + l.length - (i + 1) % l.length) %
          l.length = (j + l.length - i) % l.length - 2 := by omega
      have hIH := ih (listSwap l i j) ((i + 1) % l.length)
        ((j + l.length - 1) % l.length)
        (by rw [hlen]; exact hi') (by rw [hlen]; exact hj')
        (by rw [hlen, hDp]; omega) (by rw [hlen, hDp]; omega) k (by rw [hlen]; exact hk)
      rw [hlen] at hIH
      rw [twistOutLoop, hIH, mirror_shift l.length i j k hN hi hj hk,
        getv_listSwap l i j ((i + j + l.length - k) % l.length) hi hj,
        getv_listSwap l i j k hi hj]
      have hf1 := cdist_succ_i l.length i k hN hi hk
      have hf2 := cdist_pred_j l.length j k hN hj hk
      have hm := mod_cases3 l.length (i + j + l.length - k) hN (by omega)
      have h1 := mod_cases2 l.length (k + l.length - i) hN (by omega)
      have h2 := mod_cases2 l.length (j + l.length - k) hN (by omega)
      have h3 := mod_cases2 l.length (j + l.length - i) hN (by omega)
      clear ih hIH hd1 hd2 hDp
      by_cases hki : k = i
      · have e3 : (k + l.length - i) % l.length = 0 := by
          clear hm hf1 hf2 h2 h3 hD1 hD2; omega
        have hCf : ¬((k + l.length - (i + 1) % l.length) % l.length ≤ c ∨
            ((j + l.length - 1) % l.length + l.length - k) % l.length ≤ c) := by
          clear hm h1; omega
        have eM : (i + j + l.length - k) % l.length = j := by
          clear hf1 hf2 h1 h2 h3 hD1 hD2; omega
        rw [if_neg hCf, if_pos hki, if_pos (Or.inl (by clear hm hf1 hf2 h2 h3; omega :
          (k + l.length - i) % l.length ≤ c + 1)), eM]
      · by_cases hkj : k = j
        · have e4 : (j + l.length - k) % l.length = 0 := by
            clear hm hf1 hf2 h1 h3 hD1 hD2; omega
          have hCf : ¬((k + l.length - (i + 1) % l.length) % l.length ≤ c ∨
              ((j + l.length - 1) % l.length + l.length - k) % l.length ≤ c) := by
            clear hm h2; omega
          have eM : (i + j + l.length - k) % l.length = i := by
            clear hf1 hf2 h1 h2 h3 hD1 hD2; omega
          rw [if_neg hCf, if_neg hki, if_pos hkj, if_pos (Or.inr
            (by clear hm hf1 hf2 h1 h3; omega :
              (j + l.length - k) % l.length ≤ c + 1)), eM]
        · have hMi : ¬(i + j + l.length - k) % l.length = i := by
            clear hf1 hf2 h1 h2 h3 hD1 hD2; omega
          have hMj : ¬(i + j + l.length - k) % l.length = j := by
            clear hf1 hf2 h1 h2 h3 hD1 hD2; omega
          by_cases hC : ((k + l.length - i) % l.length ≤ c + 1 ∨
              (j + l.length - k) % l.length ≤ c + 1)
          · rw [if_pos (by clear hm h3 hD1 hD2 hMi hMj; omega :
              (k + l.length - (i + 1) % l.length) % l.length ≤ c ∨
                ((j + l.length - 1) % l.length + l.length - k) % l.length ≤ c),
              if_neg hMi, if_neg hMj, if_pos hC]
          · rw [if_neg (by clear hm h3 hD1 hD2 hMi hMj; omega :
              ¬((k + l.length - (i + 1) % l.length) % l.length ≤ c ∨
                ((j + l.length - 1) % l.length + l.length - k) % l.length ≤ c)),
              if_neg hki, if_neg hkj, if_neg hC]

theorem listTwist_eq_in (l : List Nat) (i j : Nat) (hij : i ≤ j) :
    listTwist l i j = twistInLoop ((j - i + 1) / 2) l i j := by
  rw [listTwist, if_pos hij]

theorem listTwist_eq_out (l : List Nat) (i j : Nat) (hij : ¬ i ≤ j) :
    listTwist l i j = twistOutLoop
      (((i + (l.length - (i - j + 1)) / 2) % l.length + l.length - i) % l.length)
      l i j := by
  rw [listTwist, if_neg hij]

set_option maxHeartbeats 1000000 in
theorem listTwist_getv (l : List Nat) (i j : Nat) (hi : i < l.length)
    (hj : j < l.length) (k : Nat) (hk : k < l.length) :
    getv (listTwist l i j) k =
      if (k + l.length - i) % l.length ≤ (j + l.length - i) % l.length
      then getv l ((i + j + l.length - k) % l.length)
      else getv l k := by
  have hN : 0 < l.length := by omega
  by_cases hij : i ≤ j
  · rw [listTwist_eq_in l i j hij,
      twistInLoop_getv ((j - i + 1) / 2) l i j hij hj rfl k]
    have h1 := mod_cases2 l.length (k + l.length - i) hN (by omega)
    have h3 := mod_cases2 l.length (j + l.length - i) hN (by omega)
    have hm := mod_cases3 l.length (i + j + l.length - k) hN (by omega)
    by_cases hin : i ≤ k ∧ k ≤ j
    · rw [if_pos hin, if_pos (by clear hm; omega),
        show (i + j + l.length - k) % l.length = i + j - k by clear h1 h3; omega]
    · rw [if_neg hin, if_neg (by clear hm; omega)]
  · rw [listTwist_eq_out l i j hij]
    have hji : j < i := by omega
    have hc : ((i + (l.length - (i - j + 1)) / 2) % l.length + l.length - i) %
        l.length = (l.length - (i - j + 1)) / 2 := by
      have h1 := mod_cases2 l.length (i + (l.length - (i - j + 1)) / 2) hN (by omega)
      have h2 := mod_cases2 l.length
        ((i + (l.length - (i - j + 1)) / 2) % l.length + l.length - i) hN (by omega)
      omega
    have hD : (j + l.length - i) % l.length = l.length - (i - j) := by
      rw [Nat.mod_eq_of_lt (by omega)]; omega
    rw [hc, twistOutLoop_getv ((l.length - (i - j + 1)) / 2) l i j hi hj
      (by rw [hD]; omega) (by rw [hD]; omega) k hk]
    have hsum := cdist_sum l.length i j k hi hj hk
    have hdk_lt : (k + l.length - i) % l.length < l.length := Nat.mod_lt _ hN
    have hdkj_lt : (j + l.length - k) % l.length < l.length := Nat.mod_lt _ hN
    by_cases hcond : (k + l.length - i) % l.length ≤ (j + l.length - i) % l.length
    · by_cases hOut : ((k + l.length - i) % l.length ≤ (l.length - (i - j + 1)) / 2 ∨
          (j + l.length - k) % l.length ≤ (l.length - (i - j + 1)) / 2)
      · rw [if_pos hOut, if_pos hcond]
      · rw [if_neg hOut, if_pos hcond]
        have h1 := mod_cases2 l.length (k + l.length - i) hN (by omega)
        have h3 := mod_cases2 l.length (j + l.length - i) hN (by omega)
        have hm := mod_cases3 l.length (i + j + l.length - k) hN (by omega)
        exact (congrArg (getv l) (by omega :
          k = (i + j + l.length - k) % l.length))
    · rw [if_neg (by omega :
        ¬((k + l.length - i) % l.length ≤ (l.length - (i - j + 1)) / 2 ∨
          (j + l.length - k) % l.length ≤ (l.length - (i - j + 1)) / 2)),
        if_neg hcond]

theorem listEqOfGetv (l₁ l₂ : List Nat) (hlen : l₁.length = l₂.length)
    (h : ∀ k, k < l₁.length → getv l₁ k = getv l₂ k) : l₁ = l₂ := by
  apply List.ext_getElem hlen
  intro n h₁ h₂
  have hv := h n h₁
  rwa [getv, getv, List.getD_eq_getElem l₁ 0 h₁, List.getD_eq_getElem l₂ 0 h₂] at hv

set_option maxHeartbeats 1000000 in
theorem listTwist_involution (l : List Nat) (i j : Nat) (hi : i < l.length)
    (hj : j < l.length) : listTwist (listTwist l i j) i j = l := by
  have hN : 0 < l.length := by omega
  have hlen := length_listTwist l i j
  have hlen2 : (listTwist (listTwist l i j) i j).length = l.length := by
    rw [length_listTwist, hlen]
  apply listEqOfGetv _ _ (by rw [hlen2])
  intro k hk
  rw [hlen2] at hk
  have hi2 : i < (listTwist l i j).length := by rw [hlen]; exact hi
  have hj2 : j < (listTwist l i j).length := by rw [hlen]; exact hj
  have hk2 : k < (listTwist l i j).length := by rw [hlen]; exact hk
  rw [listTwist_getv (listTwist l i j) i j hi2 hj2 k hk2, hlen]
  have hm_lt : (i + j + l.length - k) % l.length < l.length := Nat.mod_lt _ hN
  by_cases hcond : (k + l.length - i) % l.length ≤ (j + l.length - i) % l.length
  · rw [if_pos hcond,
      listTwist_getv l i j hi hj ((i + j + l.length - k) % l.length) hm_lt]
    have h1 := mod_cases2 l.length (k + l.length - i) hN (by omega)
    have h3 := mod_cases2 l.length (j + l.length - i) hN (by omega)
    have hm := mod_cases3 l.length (i + j + l.length - k) hN (by omega)
    have hcm := mod_cases2 l.length
      ((i + j + l.length - k) % l.length + l.length - i) hN (by omega)
    have hmm := mod_cases3 l.length
      (i + j + l.length - (i + j + l.length - k) % l.length) hN (by omega)
    rw [if_pos (by clear hmm; omega :
      ((i + j + l.length - k) % l.length + l.length - i) % l.length ≤
        (j + l.length - i) % l.length)]
    exact congrArg (getv l) (by clear hcm; omega :
      (i + j + l.length - (i + j + l.length - k) % l.length) % l.length = k)
  · rw [if_neg hcond, listTwist_getv l i j hi hj k hk, if_neg hcond]

theorem getv_append (A B : List Nat) (k : Nat) :
    getv (A ++ B) k = if k < A.length then getv A k else getv B (k - A.length) := by
  simp only [getv, List.getD_eq_getElem?_getD]
  by_cases h : k < A.length
  · rw [if_pos h, List.getElem?_append_left h]
  · rw [if_neg h, List.getElem?_append_right (by omega)]

theorem getv_drop (z : List Nat) (s k : Nat) :
    getv (z.drop s) k = getv z (s + k) := by
  simp only [getv, List.getD_eq_getElem?_getD, List.getElem?_drop]

theorem getv_take (z : List Nat) (s k : Nat) (h : k < s) :
    getv (z.take s) k = getv z k := by
  simp only [getv, List.getD_eq_getElem?_getD, List.getElem?_take, if_pos h]

theorem getv_reverse (A : List Nat) (k : Nat) (h : k < A.length) :
    getv A.reverse k = getv A (A.length - 1 - k) := by
  rw [getv, getv, List.getD_eq_getElem?_getD, List.getD_eq_getElem?_getD,
    List.getElem?_reverse h]

theorem cycSumF_head (f : Nat → Nat → Int) (w : List Nat) (hw : w ≠ []) :
    cycSumF f w = pathSumF f (w ++ [getv w 0]) := by
  cases w with
  | nil => exact absurd rfl hw
  | cons x rest => rfl

theorem pathSumF_cons2 (f : Nat → Nat → Int) (a b : Nat) (rest : List Nat) :
    pathSumF f (a :: b :: rest) = f a b + pathSumF f (b :: rest) := rfl

theorem pathSumF_one (f : Nat → Nat → Int) (a : Nat) : pathSumF f [a] = 0 := rfl

theorem pathSumF_split (f : Nat → Nat → Int) :
    ∀ (xs : List Nat) (y : Nat) (ys : List Nat),
      pathSumF f (xs ++ y :: ys) = pathSumF f (xs ++ [y]) + pathSumF f (y :: ys) := by
  intro xs
  induction xs with
  | nil =>
      intro y ys
      show pathSumF f (y :: ys) = pathSumF f [y] + pathSumF f (y :: ys)
      rw [pathSumF_one]
      ring
  | cons x xs ih =>
      intro y ys
      cases xs with
      | nil =>
          show pathSumF f (x :: y :: ys) = pathSumF f (x :: [y]) + pathSumF f (y :: ys)
          rw [pathSumF_cons2, pathSumF_cons2, pathSumF_one]
          ring
      | cons x2 xs2 =>
          show pathSumF f (x :: x2 :: (xs2 ++ y :: ys)) =
            pathSumF f (x :: x2 :: (xs2 ++ [y])) + pathSumF f (y :: ys)
          rw [pathSumF_cons2, pathSumF_cons2]
          have h : pathSumF f (x2 :: (xs2 ++ y :: ys)) =
              pathSumF f (x2 :: (xs2 ++ [y])) + pathSumF f (y :: ys) := ih y ys
          rw [h]
          ring

theorem pathSumF_concat (f : Nat → Nat → Int) :
    ∀ (A : List Nat), A ≠ [] → ∀ (c : Nat),
      pathSumF f (A ++ [c]) = pathSumF f A + f (getv A (A.length - 1)) c := by
  intro A
  induction A with
  | nil => intro h; exact absurd rfl h
  | cons a as ih =>
      intro _ c
      cases as with
      | nil =>
          show pathSumF f (a :: [c]) = pathSumF f [a] + f (getv [a] 0) c
          rw [pathSumF_cons2, pathSumF_one, pathSumF_one]
          show f a c + 0 = 0 + f a c
          ring
      | cons b bs =>
          show pathSumF f (a :: b :: (bs ++ [c])) =
            pathSumF f (a :: b :: bs) + f (getv (a :: b :: bs) (bs.length + 1 + 1 - 1)) c
          rw [pathSumF_cons2, pathSumF_cons2]
          have h2 : getv (a :: b :: bs) (bs.length + 1 + 1 - 1) = getv (b :: bs) bs.length := by
            show getv (a :: b :: bs) (bs.length + 1) = getv (b :: bs) bs.length
            exact List.getD_cons_succ
          rw [h2]
          have hih : pathSumF f (b :: (bs ++ [c])) =
              pathSumF f (b :: bs) + f (getv (b :: bs) bs.length) c :=
            ih (List.cons_ne_nil b bs) c
          rw [hih]
          ring

theorem pathSumF_reverse (f : Nat → Nat → Int) :
    ∀ (l : List Nat), (∀ x y, x ∈ l → y ∈ l → f x y = f y x) →
      pathSumF f l.reverse = pathSumF f l := by
  intro l
  induction l with
  | nil => intro _; rfl
  | cons x xs ih =>
      intro hsym
      cases xs with
      | nil => rfl
      | cons y ys =>
          rw [List.reverse_cons,
            pathSumF_concat f ((y :: ys).reverse) (by simp) x]
          have hg : getv ((y :: ys).reverse) ((y :: ys).reverse.length - 1) = y := by
            have hlen : (y :: ys).reverse.length = ys.length + 1 := by simp
            rw [hlen]
            show getv ((y :: ys).reverse) ys.length = y
            rw [getv_reverse (y :: ys) ys.length (by simp)]
            rw [show (y :: ys).length - 1 - ys.length = 0 from by simp]
            rfl
          rw [hg,
            ih (fun a b ha hb =>
              hsym a b (List.mem_cons_of_mem x ha) (List.mem_cons_of_mem x hb)),
            pathSumF_cons2, hsym x y (by simp) (by simp)]
          ring

theorem cycSumF_rotation (f : Nat → Nat → Int) (u v : List Nat) :
    cycSumF f (u ++ v) = cycSumF f (v ++ u) := by
  cases u with
  | nil => simp
  | cons a as =>
      cases v with
      | nil => simp
      | cons b bs =>
          rw [cycSumF_head f ((a :: as) ++ (b :: bs)) (by simp),
            cycSumF_head f ((b :: bs) ++ (a :: as)) (by simp)]
          show pathSumF f (((a :: as) ++ (b :: bs)) ++ [a]) =
            pathSumF f (((b :: bs) ++ (a :: as)) ++ [b])
          rw [List.append_assoc, List.append_assoc]
          show pathSumF f ((a :: as) ++ (b :: (bs ++ [a]))) =
            pathSumF f ((b :: bs) ++ (a :: (as ++ [b])))
          rw [pathSumF_split f (a :: as) b (bs ++ [a]),
            pathSumF_split f (b :: bs) a (as ++ [b])]
          show pathSumF f ((a :: as) ++ [b]) + pathSumF f ((b :: bs) ++ [a]) =
            pathSumF f ((b :: bs) ++ [a]) + pathSumF f ((a :: as) ++ [b])
          ring

theorem cycSumF_reverse_seg (f : Nat → Nat → Int) (u v : List Nat)
    (hu : u ≠ []) (hv : v ≠ [])
    (hsym : ∀ x y, x ∈ u → y ∈ u → f x y = f y x) :
    cycSumF f (u.reverse ++ v) = cycSumF f (u ++ v)
      + (f (getv u 0) (getv v 0)
          + f (getv v (v.length - 1)) (getv u (u.length - 1))
          - f (getv u (u.length - 1)) (getv v 0)
          - f (getv v (v.length - 1)) (getv u 0)) := by
  rcases u with _ | ⟨a, as⟩
  · exact absurd rfl hu
  rcases v with _ | ⟨b, bs⟩
  · exact absurd rfl hv
  have hrevlen : (a :: as).reverse.length = as.length + 1 := by simp
  have hrevne : (a :: as).reverse ≠ [] := by simp
  have hg0 : getv ((a :: as).reverse) 0 = getv (a :: as) (as.length) := by
    rw [getv_reverse (a :: as) 0 (by simp)]
    rw [show (a :: as).length - 1 - 0 = as.length from by simp]
  have hglast : getv ((a :: as).reverse) ((a :: as).reverse.length - 1) =
      getv (a :: as) 0 := by
    rw [hrevlen]
    show getv ((a :: as).reverse) as.length = getv (a :: as) 0
    rw [getv_reverse (a :: as) as.length (by simp)]
    rw [show (a :: as).length - 1 - as.length = 0 from by simp]
  have hheadL : getv ((a :: as).reverse ++ (b :: bs)) 0 = getv (a :: as) as.length := by
    rw [getv_append, if_pos (by rw [hrevlen]; omega), hg0]
  rw [cycSumF_head f ((a :: as).reverse ++ (b :: bs)) (by simp),
    cycSumF_head f ((a :: as) ++ (b :: bs)) (by simp), hheadL]
  show pathSumF f (((a :: as).reverse ++ (b :: bs)) ++ [getv (a :: as) as.length]) =
    pathSumF f (((a :: as) ++ (b :: bs)) ++ [a])
      + (f a b + f (getv (b :: bs) (bs.length + 1 - 1)) (getv (a :: as) (as.length + 1 - 1))
        - f (getv (a :: as) (as.length + 1 - 1)) b
        - f (getv (b :: bs) (bs.length + 1 - 1)) a)
  rw [List.append_assoc, List.append_assoc]
  show pathSumF f ((a :: as).reverse ++ (b :: (bs ++ [getv (a :: as) as.length]))) =
    pathSumF f ((a :: as) ++ (b :: (bs ++ [a])))
      + (f a b + f (getv (b :: bs) (bs.length + 1 - 1)) (getv (a :: as) (as.length + 1 - 1))
        - f (getv (a :: as) (as.length + 1 - 1)) b
        - f (getv (b :: bs) (bs.length + 1 - 1)) a)
  rw [pathSumF_split f ((a :: as).reverse) b (bs ++ [getv (a :: as) as.length]),
    pathSumF_split f (a :: as) b (bs ++ [a])]
  have e1 : pathSumF f ((a :: as).reverse ++ [b]) =
      pathSumF f (a :: as) + f (getv (a :: as) 0) b := by
    rw [pathSumF_concat f ((a :: as).reverse) hrevne b, hglast,
      pathSumF_reverse f (a :: as) hsym]
  have e2 : pathSumF f (b :: (bs ++ [getv (a :: as) as.length])) =
      pathSumF f (b :: bs)
        + f (getv (b :: bs) bs.length) (getv (a :: as) as.length) := by
    have h := pathSumF_concat f (b :: bs) (by simp) (getv (a :: as) as.length)
    rw [show (b :: bs).length - 1 = bs.length from by simp] at h
    exact h
  have e3 : pathSumF f ((a :: as) ++ [b]) =
      pathSumF f (a :: as) + f (getv (a :: as) as.length) b := by
    have h := pathSumF_concat f (a :: as) (by simp) b
    rw [show (a :: as).length - 1 = as.length from by simp] at h
    exact h
  have e4 : pathSumF f (b :: (bs ++ [a])) =
      pathSumF f (b :: bs) + f (getv (b :: bs) bs.length) a := by
    have h := pathSumF_concat f (b :: bs) (by simp) a
    rw [show (b :: bs).length - 1 = bs.length from by simp] at h
    exact h
  rw [e1, e2, e3, e4]
  show pathSumF f (a :: as) + f a b + (pathSumF f (b :: bs)
      + f (getv (b :: bs) bs.length) (getv (a :: as) as.length)) =
    pathSumF f (a :: as) + f (getv (a :: as) as.length) b + (pathSumF f (b :: bs)
      + f (getv (b :: bs) bs.length) a)
      + (f a b + f (getv (b :: bs) bs.length) (getv (a :: as) as.length)
        - f (getv (a :: as) as.length) b - f (getv (b :: bs) bs.length) a)
  ring

theorem length_rotl (s : Nat) (l : List Nat) (hs : s ≤ l.length) :
    (rotl s l).length = l.length := by
  simp only [rotl, List.length_append, List.length_drop, List.length_take]
  omega

theorem getv_rotl (l : List Nat) (s k : Nat) (hs : s ≤ l.length)
    (hk : k < l.length) :
    getv (rotl s l) k = getv l ((k + s) % l.length) := by
  have hN : 0 < l.length := by omega
  rw [rotl, getv_append, List.length_drop]
  by_cases h : k < l.length - s
  · rw [if_pos h, getv_drop]
    exact congrArg (getv l) (by rw [Nat.mod_eq_of_lt (by omega)]; omega)
  · rw [if_neg h, getv_take l s _ (by omega)]
    refine congrArg (getv l) ?_
    have h2 := mod_cases2 l.length (k + s) hN (by omega)
    omega

theorem mem_rotl (l : List Nat) (s z : Nat) (hz : z ∈ rotl s l) : z ∈ l := by
  rw [rotl, List.mem_append] at hz
  rcases hz with h | h
  · exact List.drop_subset s l h
  · exact List.take_subset s l h

theorem cycSumF_rotl (f : Nat → Nat → Int) (s : Nat) (l : List Nat) :
    cycSumF f (rotl s l) = cycSumF f l := by
  rw [rotl, cycSumF_rotation f (l.drop s) (l.take s), List.take_append_drop]

set_option maxHeartbeats 1000000 in
theorem rotl_twist_eq (l : List Nat) (s t : Nat) (hs : s < l.length)
    (ht : t < l.length) :
    rotl s (listTwist l s t) =
      ((rotl s l).take ((t + l.length - s) % l.length + 1)).reverse
        ++ (rotl s l).drop ((t + l.length - s) % l.length + 1) := by
  have hN : 0 < l.length := by omega
  have hD_lt : (t + l.length - s) % l.length < l.length := Nat.mod_lt _ hN
  have hlt : (listTwist l s t).length = l.length := length_listTwist l s t
  have hrl : (rotl s l).length = l.length := length_rotl s l (by omega)
  have hlhslen : (rotl s (listTwist l s t)).length = l.length := by
    rw [rotl]
    simp only [List.length_append, List.length_drop, List.length_take, hlt]
    omega
  apply listEqOfGetv
  · rw [hlhslen]
    simp only [List.length_append, List.length_drop, List.length_take,
      List.length_reverse, hrl]
    omega
  · intro k hk
    rw [hlhslen] at hk
    have hks : (k + s) % l.length < l.length := Nat.mod_lt _ hN
    have hLHS : getv (rotl s (listTwist l s t)) k =
        getv (listTwist l s t) ((k + s) % (listTwist l s t).length) :=
      getv_rotl (listTwist l s t) s k (by omega) (by omega)
    rw [hlt] at hLHS
    rw [hLHS, listTwist_getv l s t hs ht ((k + s) % l.length) hks]
    have hcd : ((k + s) % l.length + l.length - s) % l.length = k := by
      have h1 := mod_cases2 l.length (k + s) hN (by omega)
      have h2 := mod_cases2 l.length ((k + s) % l.length + l.length - s) hN
        (by omega)
      omega
    rw [hcd]
    rw [getv_append]
    have htklen : (((rotl s l).take ((t + l.length - s) % l.length + 1))).reverse.length
        = (t + l.length - s) % l.length + 1 := by
      simp only [List.length_reverse, List.length_take, hrl]
      omega
    rw [htklen]
    by_cases hkD : k ≤ (t + l.length - s) % l.length
    · rw [if_pos hkD, if_pos (by omega)]
      rw [getv_reverse _ k (by
        simp only [List.length_take, hrl]
        omega)]
      have htk2 : ((rotl s l).take ((t + l.length - s) % l.length + 1)).length =
          (t + l.length - s) % l.length + 1 := by
        simp only [List.length_take, hrl]
        omega
      rw [htk2,
        getv_take (rotl s l) ((t + l.length - s) % l.length + 1) _ (by omega),
        getv_rotl l s _ (by omega) (by omega)]
      refine congrArg (getv l) ?_
      have hm1 := mod_cases2 l.length (k + s) hN (by omega)
      have hm2 := mod_cases3 l.length (s + t + l.length - (k + s) % l.length) hN
        (by omega)
      have hm3 := mod_cases2 l.length
        ((t + l.length - s) % l.length + 1 - 1 - k + s) hN (by omega)
      have hm4 := mod_cases2 l.length (t + l.length - s) hN (by omega)
      omega
    · rw [if_neg hkD, if_neg (by omega), getv_drop,
        getv_rotl l s _ (by omega) (by omega)]
      refine congrArg (getv l) ?_
      refine congrArg (fun z => z % l.length) ?_
      omega

set_option maxHeartbeats 1000000 in
theorem cycSumF_twist (f : Nat → Nat → Int) (l : List Nat) (s t : Nat)
    (hN2 : 2 ≤ l.length) (hs : s < l.length) (ht : t < l.length)
    (hD : (t + l.length - s) % l.length ≤ l.length - 2)
    (hsym : ∀ x y, x ∈ l → y ∈ l → f x y = f y x) :
    cycSumF f (listTwist l s t) = cycSumF f l
      + (f (getv l ((s + l.length - 1) % l.length)) (getv l t)
          + f (getv l s) (getv l ((t + 1) % l.length))
          - f (getv l ((s + l.length - 1) % l.length)) (getv l s)
          - f (getv l t) (getv l ((t + 1) % l.length))) := by
  have hN : 0 < l.length := by omega
  have hD_lt : (t + l.length - s) % l.length < l.length := Nat.mod_lt _ hN
  have hrl : (rotl s l).length = l.length := length_rotl s l (by omega)
  have h0 : cycSumF f (listTwist l s t) = cycSumF f (rotl s (listTwist l s t)) :=
    (cycSumF_rotl f s (listTwist l s t)).symm
  rw [h0, rotl_twist_eq l s t hs ht]
  have hulen : ((rotl s l).take ((t + l.length - s) % l.length + 1)).length =
      (t + l.length - s) % l.length + 1 := by
    simp only [List.length_take, hrl]
    omega
  have hvlen : ((rotl s l).drop ((t + l.length - s) % l.length + 1)).length =
      l.length - ((t + l.length - s) % l.length + 1) := by
    simp only [List.length_drop, hrl]
  have hu : (rotl s l).take ((t + l.length - s) % l.length + 1) ≠ [] := by
    intro h
    rw [h] at hulen
    simp at hulen
  have hv : (rotl s l).drop ((t + l.length - s) % l.length + 1) ≠ [] := by
    intro h
    rw [h] at hvlen
    simp at hvlen
    omega
  have hsymu : ∀ x y, x ∈ (rotl s l).take ((t + l.length - s) % l.length + 1) →
      y ∈ (rotl s l).take ((t + l.length - s) % l.length + 1) → f x y = f y x := by
    intro x y hx hy
    exact hsym x y (mem_rotl l s x (List.take_subset _ _ hx))
      (mem_rotl l s y (List.take_subset _ _ hy))
  rw [cycSumF_reverse_seg f _ _ hu hv hsymu, List.take_append_drop,
    cycSumF_rotl f s l]
  have hg1 : getv ((rotl s l).take ((t + l.length - s) % l.length + 1)) 0 =
      getv l s := by
    rw [getv_take _ _ 0 (by omega), getv_rotl l s 0 (by omega) (by omega)]
    refine congrArg (getv l) ?_
    rw [Nat.zero_add]
    exact Nat.mod_eq_of_lt hs
  have hg2 : getv ((rotl s l).take ((t + l.length - s) % l.length + 1))
      (((rotl s l).take ((t + l.length - s) % l.length + 1)).length - 1) =
      getv l t := by
    rw [hulen]
    show getv ((rotl s l).take ((t + l.length - s) % l.length + 1))
      ((t + l.length - s) % l.length) = getv l t
    rw [getv_take _ _ _ (by omega), getv_rotl l s _ (by omega) (by omega)]
    refine congrArg (getv l) ?_
    have h1 := mod_cases2 l.length (t + l.length - s) hN (by omega)
    have h2 := mod_cases2 l.length ((t + l.length - s) % l.length + s) hN (by omega)
    omega
  have hg3 : getv ((rotl s l).drop ((t + l.length - s) % l.length + 1)) 0 =
      getv l ((t + 1) % l.length) := by
    rw [getv_drop, getv_rotl l s _ (by omega) (by omega)]
    refine congrArg (getv l) ?_
    have h1 := mod_cases2 l.length (t + l.length - s) hN (by omega)
    have h2 := mod_cases2 l.length ((t + l.length - s) % l.length + 1 + 0 + s) hN
      (by omega)
    have h3 := mod_cases2 l.length (t + 1) hN (by omega)
    omega
  have hg4 : getv ((rotl s l).drop ((t + l.length - s) % l.length + 1))
      (((rotl s l).drop ((t + l.length - s) % l.length + 1)).length - 1) =
      getv l ((s + l.length - 1) % l.length) := by
    rw [hvlen, getv_drop, getv_rotl l s _ (by omega) (by omega)]
    refine congrArg (getv l) ?_
    have h1 := mod_cases2 l.length
      ((t + l.length - s) % l.length + 1 +
        (l.length - ((t + l.length - s) % l.length + 1) - 1) + s) hN (by omega)
    have h2 := mod_cases2 l.length (s + l.length - 1) hN (by omega)
    omega
  rw [hg1, hg2, hg3, hg4]
  ring

theorem foldl_zip_pathSum (f : Nat → Nat → Int) :
    ∀ (l : List Nat) (a : Int),
      (List.zip l l.tail).foldl (fun d p => d + f p.1 p.2) a = a + pathSumF f l := by
  intro l
  induction l with
  | nil => intro a; simp [pathSumF]
  | cons x xs ih =>
      intro a
      cases xs with
      | nil => simp [pathSumF]
      | cons y ys =>
          show (List.zip (x :: y :: ys) (y :: ys)).foldl
            (fun d p => d + f p.1 p.2) a = a + pathSumF f (x :: y :: ys)
          rw [List.zip_cons_cons, List.foldl_cons]
          have h : (List.zip (y :: ys) ys).foldl (fun d p => d + f p.1 p.2)
              (a + f x y) = (a + f x y) + pathSumF f (y :: ys) := ih (a + f x y)
          rw [h, pathSumF_cons2]
          ring

theorem sum_edges_eq_cycSumF (g : GuidedLocalSearch) (l : List Nat) (hl : l ≠ []) :
    g.sum_edges l = cycSumF (fun x y => g.get x y) l := by
  rw [GuidedLocalSearch.sum_edges, foldl_zip_pathSum (fun x y => g.get x y) l 0,
    cycSumF_head _ l hl,
    pathSumF_concat (fun x y => g.get x y) l hl (getv l 0)]
  ring

theorem penEdge_zero (g : GuidedLocalSearch) : penEdge g 0 = fun x y => g.get x y := by
  funext x y
  simp [penEdge]

theorem costChange_eq_penEdge (g : GuidedLocalSearch) (r : Route) (i j : Nat)
    (lam : Int) :
    costChange g r i j lam lam =
      penEdge g lam (getv r.path i) (getv r.path j)
        + penEdge g lam (getv r.path ((i + 1) % r.path.length))
            (getv r.path ((j + 1) % r.path.length))
        - penEdge g lam (getv r.path i) (getv r.path ((i + 1) % r.path.length))
        - penEdge g lam (getv r.path j) (getv r.path ((j + 1) % r.path.length)) := by
  show (g.get (getv r.path i) (getv r.path j)
      + g.get (getv r.path ((i + 1) % r.path.length))
          (getv r.path ((j + 1) % r.path.length))
      + lam * (g.penaltyAt (getv r.path i) (getv r.path j)
          + g.penaltyAt (getv r.path ((i + 1) % r.path.length))
              (getv r.path ((j + 1) % r.path.length))))
    - (g.get (getv r.path i) (getv r.path ((i + 1) % r.path.length))
      + g.get (getv r.path j) (getv r.path ((j + 1) % r.path.length))
      + lam * (g.penaltyAt (getv r.path i) (getv r.path ((i + 1) % r.path.length))
          + g.penaltyAt (getv r.path j) (getv r.path ((j + 1) % r.path.length)))) = _
  simp only [penEdge]
  ring

theorem succ_prev_mod (N i : Nat) (hN : 0 < N) (hi : i < N) :
    ((i + 1) % N + N - 1) % N = i := by
  have h1 := mod_cases2 N (i + 1) hN (by omega)
  have h2 := mod_cases2 N ((i + 1) % N + N - 1) hN
    (by have := Nat.mod_lt (i + 1) hN; omega)
  omega

theorem cdist_succ_ne (N i j : Nat) (hN : 0 < N) (hi : i < N) (hj : j < N)
    (hij : i ≠ j) :
    (j + N - (i + 1) % N) % N ≤ N - 2 := by
  have h1 := cdist_succ_i N i j hN hi hj
  have h2 := cdist_eq_zero_iff N i j hi hj
  have h3 : (j + N - i) % N < N := Nat.mod_lt _ hN
  omega

set_option maxHeartbeats 400000 in
theorem penCost_twist_step (g : GuidedLocalSearch) (lam : Int) (r : Route)
    (i j : Nat) (hN2 : 2 ≤ r.path.length) (hi : i < r.path.length)
    (hj : j < r.path.length) (hij : i ≠ j)
    (hsym : ∀ x y, x ∈ r.path → y ∈ r.path →
      penEdge g lam x y = penEdge g lam y x) :
    penCost g lam (listTwist r.path ((i + 1) % r.path.length) j) =
      penCost g lam r.path + costChange g r i j lam lam := by
  have hN : 0 < r.path.length := by omega
  have hs : (i + 1) % r.path.length < r.path.length := Nat.mod_lt _ hN
  have hD := cdist_succ_ne r.path.length i j hN hi hj hij
  have h := cycSumF_twist (penEdge g lam) r.path ((i + 1) % r.path.length) j
    hN2 hs hj hD hsym
  rw [penCost, penCost, h, succ_prev_mod r.path.length i hN hi,
    costChange_eq_penEdge g r i j lam]

theorem deltaSpec_eq_costChange (g : GuidedLocalSearch) (lam : Int) (r : Route)
    (i j : Nat) : deltaSpec g lam r i j = costChange g r i j lam lam := by
  rw [costChange_eq_penEdge g r i j lam]
  show (penEdge g lam (getv r.path i) (getv r.path j)
      + penEdge g lam (getv r.path ((i + 1) % r.path.length))
          (getv r.path ((j + 1) % r.path.length)))
    - (penEdge g lam (getv r.path i) (getv r.path ((i + 1) % r.path.length))
      + penEdge g lam (getv r.path j) (getv r.path ((j + 1) % r.path.length))) = _
  ring

theorem innerLoop_eq_find (g : GuidedLocalSearch) (r : Route) (i : Nat)
    (o n : Int) :
    ∀ js : List Nat, innerLoop g r i o n js =
      (js.find? (fun j => decide (costChange g r i j o n < 0))).map
        (fun j => (r.twist ((i + 1) % r.path.length) j (costChange g r i j o n),
          costChange g r i j o n)) := by
  intro js
  induction js with
  | nil => rfl
  | cons j rest ih =>
      rw [List.find?_cons]
      by_cases h : costChange g r i j o n < 0
      · simp only [innerLoop, if_pos h, decide_eq_true h]
        rfl
      · simp only [innerLoop, if_neg h, decide_eq_false h, ih]

theorem outerLoop_eq_find (g : GuidedLocalSearch) (r : Route) (nb : List Nat)
    (o n : Int) :
    ∀ (count a : Nat), a + count = nb.length →
      outerLoop g r nb o n count a =
        (((nb.enum.drop a).flatMap
            (fun p => (nb.drop (p.1 + 1 + 1)).map (fun w => (p.2, w)))).find?
          (fun q => decide (costChange g r q.1 q.2 o n < 0))).map
          (fun q => (r.twist ((q.1 + 1) % r.path.length) q.2
            (costChange g r q.1 q.2 o n), costChange g r q.1 q.2 o n)) := by
  intro count
  induction count with
  | zero =>
      intro a ha
      have hnil : nb.enum.drop a = [] := by
        apply List.drop_eq_nil_of_le
        rw [List.enum_length]
        omega
      rw [outerLoop, hnil, List.flatMap_nil]
      rfl
  | succ count ih =>
      intro a ha
      have halt : a < nb.length := by omega
      have henum : nb.enum.drop a = (a, getElem nb a halt) :: nb.enum.drop (a + 1) := by
        rw [List.drop_eq_getElem_cons (by rw [List.enum_length]; omega),
          List.getElem_enum]
      have hga : getv nb a = getElem nb a halt := List.getD_eq_getElem nb 0 halt
      rw [outerLoop, henum, List.flatMap_cons, List.find?_append,
        innerLoop_eq_find g r (getv nb a) o n (nb.drop (a + 2)), hga]
      have hdrop : nb.drop (a + 1 + 1) = nb.drop (a + 2) := rfl
      rw [hdrop, List.find?_map]
      have hpf : ((fun q : Nat × Nat => decide (costChange g r q.1 q.2 o n < 0))
          ∘ (fun w => (getElem nb a halt, w))) =
          (fun j => decide (costChange g r (getElem nb a halt) j o n < 0)) := rfl
      rw [hpf]
      cases hfind : (nb.drop (a + 2)).find?
          (fun j => decide (costChange g r (getElem nb a halt) j o n < 0)) with
      | some j => rfl
      | none =>
          show outerLoop g r nb o n count (a + 1) = _
          rw [ih (a + 1) (by omega)]
          rfl

theorem local_search_step_eq_scan (g : GuidedLocalSearch) (r : Route)
    (nb : List Nat) (lam : Int) :
    local_search_step g r nb lam lam =
      match scanFirstSpec g lam r nb with
      | none => (r, 0)
      | some q => (r.twist ((q.1 + 1) % r.path.length) q.2
          (deltaSpec g lam r q.1 q.2), deltaSpec g lam r q.1 q.2) := by
  have hpred : (fun p : Nat × Nat => decide (deltaSpec g lam r p.1 p.2 < 0)) =
      (fun p : Nat × Nat => decide (costChange g r p.1 p.2 lam lam < 0)) := by
    funext p
    rw [deltaSpec_eq_costChange]
  have hie : interpolate_edges nb 1 = nb.enum.flatMap
      (fun p => (nb.drop (p.1 + 1 + 1)).map (fun w => (p.2, w))) := rfl
  have hdz : nb.enum.drop 0 = nb.enum := List.drop_zero nb.enum
  rw [local_search_step, outerLoop_eq_find g r nb lam lam nb.length 0 (by omega),
    hdz, scanFirstSpec, hpred, hie]
  cases hscan : (nb.enum.flatMap
      (fun p => (nb.drop (p.1 + 1 + 1)).map (fun w => (p.2, w)))).find?
      (fun p : Nat × Nat => decide (costChange g r p.1 p.2 lam lam < 0)) with
  | none => rfl
  | some q =>
      show (r.twist ((q.1 + 1) % r.path.length) q.2
          (costChange g r q.1 q.2 lam lam), costChange g r q.1 q.2 lam lam) =
        (r.twist ((q.1 + 1) % r.path.length) q.2
          (deltaSpec g lam r q.1 q.2), deltaSpec g lam r q.1 q.2)
      rw [deltaSpec_eq_costChange]

theorem local_searchN_succ (g : GuidedLocalSearch) (fuel : Nat) (r : Route)
    (nb : List Nat) (o n : Int) :
    local_searchN g (fuel + 1) r nb o n =
      if (local_search_step g r nb o n).2 = 0
      then some (local_search_step g r nb o n).1
      else local_searchN g fuel (local_search_step g r nb o n).1 nb o n := rfl

theorem step_snd_zero (g : GuidedLocalSearch) (r : Route) (nb : List Nat)
    (lam : Int) (h : (local_search_step g r nb lam lam).2 = 0) :
    local_search_step g r nb lam lam = (r, 0) ∧
      scanFirstSpec g lam r nb = none := by
  have he := local_search_step_eq_scan g r nb lam
  cases hscan : scanFirstSpec g lam r nb with
  | none =>
      rw [hscan] at he
      exact ⟨he, rfl⟩
  | some q =>
      rw [hscan] at he
      have hneg : deltaSpec g lam r q.1 q.2 < 0 := by
        have := List.find?_some hscan
        simpa using this
      rw [he] at h
      exact absurd (show deltaSpec g lam r q.1 q.2 = 0 from h) (by omega)

theorem local_searchN_terminal (g : GuidedLocalSearch) (nb : List Nat)
    (lam : Int) : ∀ (fuel : Nat) (r r' : Route),
    local_searchN g fuel r nb lam lam = some r' →
    scanFirstSpec g lam r' nb = none := by
  intro fuel
  induction fuel with
  | zero => intro r r' h; exact absurd h (by simp [local_searchN])
  | succ fuel ih =>
      intro r r' h
      rw [local_searchN_succ] at h
      by_cases hz : (local_search_step g r nb lam lam).2 = 0
      · rw [if_pos hz] at h
        obtain ⟨hstep, hscan⟩ := step_snd_zero g r nb lam hz
        rw [hstep] at h
        cases h
        exact hscan
      · rw [if_neg hz] at h
        exact ih _ _ h

theorem scanFirst_none_iff (g : GuidedLocalSearch) (lam : Int) (r : Route)
    (nb : List Nat) :
    scanFirstSpec g lam r nb = none ↔
      ∀ p ∈ interpolate_edges nb 1, 0 ≤ deltaSpec g lam r p.1 p.2 := by
  rw [scanFirstSpec, List.find?_eq_none]
  constructor
  · intro h p hp
    have := h p hp
    simp at this
    omega
  · intro h p hp
    simp
    have := h p hp
    omega

theorem mem_interpolate_of_indices (nb : List Nat) (a b : Nat)
    (hab : a + 2 ≤ b) (hb : b < nb.length) :
    (getv nb a, getv nb b) ∈ interpolate_edges nb 1 := by
  have ha : a < nb.length := by omega
  rw [interpolate_edges, List.mem_flatMap]
  refine ⟨(a, getv nb a), ?_, ?_⟩
  · rw [List.mem_enum_iff_getElem?]
    show nb[a]? = some (getv nb a)
    rw [List.getElem?_eq_getElem ha]
    exact congrArg some (List.getD_eq_getElem nb 0 ha).symm
  · rw [List.mem_map]
    refine ⟨getv nb b, ?_, rfl⟩
    rw [List.mem_iff_getElem?]
    refine ⟨b - (a + 2), ?_⟩
    rw [List.getElem?_drop,
      show a + 1 + 1 + (b - (a + 2)) = b from by omega,
      List.getElem?_eq_getElem hb]
    exact congrArg some (List.getD_eq_getElem nb 0 hb).symm

theorem scanFirst_some_spec (g : GuidedLocalSearch) (lam : Int) (r : Route)
    (nb : List Nat) (q : Nat × Nat) (h : scanFirstSpec g lam r nb = some q) :
    (∃ a b, a + 2 ≤ b ∧ b < nb.length ∧ q = (getv nb a, getv nb b)) ∧
      deltaSpec g lam r q.1 q.2 < 0 := by
  have hmem : q ∈ interpolate_edges nb 1 := List.mem_of_find?_eq_some h
  have hp : deltaSpec g lam r q.1 q.2 < 0 := by
    have := List.find?_some h
    simpa using this
  refine ⟨?_, hp⟩
  rw [interpolate_edges, List.mem_flatMap] at hmem
  obtain ⟨p, hpmem, hq⟩ := hmem
  rw [List.mem_enum_iff_getElem?] at hpmem
  rw [List.mem_map] at hq
  obtain ⟨w, hw, hqe⟩ := hq
  obtain ⟨idx, hidx, hval⟩ := List.getElem_of_mem hw
  have hplen : p.1 < nb.length := by
    by_contra hcon
    rw [List.getElem?_eq_none (by omega)] at hpmem
    cases hpmem
  have hblen : p.1 + 2 + idx < nb.length := by
    rw [List.length_drop] at hidx
    omega
  refine ⟨p.1, p.1 + 2 + idx, by omega, hblen, ?_⟩
  have hp2 : getv nb p.1 = p.2 := by
    rw [getv, List.getD_eq_getElem?_getD, hpmem]
    rfl
  have hwv : getv nb (p.1 + 2 + idx) = w := by
    have h2 : (nb.drop (p.1 + 1 + 1))[idx]? = some w := by
      rw [List.getElem?_eq_getElem hidx]
      exact congrArg some hval
    rw [List.getElem?_drop,
      show p.1 + 1 + 1 + idx = p.1 + 2 + idx from by omega] at h2
    rw [getv, List.getD_eq_getElem?_getD, h2]
    rfl
  rw [← hqe, hp2, hwv]

theorem mem_lt_of_perm_range (l : List Nat) (n : Nat) (hl : l.Perm (List.range n))
    (x : Nat) (hx : x ∈ l) : x < n := by
  have := (hl.mem_iff).mp hx
  rwa [List.mem_range] at this

theorem penEdge_symm_on_path (g : GuidedLocalSearch) (lam : Int) (l : List Nat)
    (hl : l.Perm (List.range g.size)) (h1 : distSymm g) (h2 : penSymm g) :
    ∀ x y, x ∈ l → y ∈ l → penEdge g lam x y = penEdge g lam y x := by
  intro x y hx hy
  have hx' := mem_lt_of_perm_range l g.size hl x hx
  have hy' := mem_lt_of_perm_range l g.size hl y hy
  rw [penEdge, penEdge, h1 x y hx' hy', h2 x y hx' hy']

theorem getv_mem (l : List Nat) (k : Nat) (hk : k < l.length) : getv l k ∈ l := by
  rw [getv, List.getD_eq_getElem l 0 hk]
  exact List.getElem_mem hk

theorem step_preserves (g : GuidedLocalSearch) (lam : Int) (nb : List Nat)
    (r : Route) (hsz : 2 ≤ g.size) (hd : distSymm g) (hp : penSymm g)
    (hnb : nb.Perm (List.range g.size)) (hr : r.path.Perm (List.range g.size))
    (hc : r.cost = penCost g lam r.path) :
    (local_search_step g r nb lam lam).1.path.Perm (List.range g.size) ∧
      (local_search_step g r nb lam lam).1.cost =
        penCost g lam (local_search_step g r nb lam lam).1.path := by
  have hlen : r.path.length = g.size := by rw [hr.length_eq, List.length_range]
  have he := local_search_step_eq_scan g r nb lam
  cases hscan : scanFirstSpec g lam r nb with
  | none =>
      rw [hscan] at he
      rw [he]
      exact ⟨hr, hc⟩
  | some q =>
      rw [hscan] at he
      obtain ⟨⟨a, b, hab, hb, hq⟩, _⟩ := scanFirst_some_spec g lam r nb q hscan
      have hnblen : nb.length = g.size := by rw [hnb.length_eq, List.length_range]
      have ha : a < nb.length := by omega
      have hq1lt : q.1 < g.size := by
        rw [hq]
        exact mem_lt_of_perm_range nb g.size hnb _ (getv_mem nb a ha)
      have hq2lt : q.2 < g.size := by
        rw [hq]
        exact mem_lt_of_perm_range nb g.size hnb _ (getv_mem nb b hb)
      have hnodup : nb.Nodup := (hnb.nodup_iff).mpr (List.nodup_range _)
      have hne : q.1 ≠ q.2 := by
        rw [hq]
        intro hcon
        have hcon2 : nb.getD a 0 = nb.getD b 0 := hcon
        rw [List.getD_eq_getElem nb 0 ha, List.getD_eq_getElem nb 0 hb] at hcon2
        have := (hnodup.getElem_inj_iff).mp hcon2
        omega
      rw [he]
      refine ⟨?_, ?_⟩
      · show (listTwist r.path ((q.1 + 1) % r.path.length) q.2).Perm
          (List.range g.size)
        refine (listTwist_perm r.path _ _ ?_ ?_).trans hr
        · exact Nat.mod_lt _ (by omega)
        · omega
      · show r.cost + deltaSpec g lam r q.1 q.2 =
          penCost g lam (listTwist r.path ((q.1 + 1) % r.path.length) q.2)
        rw [penCost_twist_step g lam r q.1 q.2 (by omega) (by omega) (by omega) hne
          (penEdge_symm_on_path g lam r.path hr hd hp), hc,
          deltaSpec_eq_costChange]

theorem local_searchN_inv (g : GuidedLocalSearch) (lam : Int) (nb : List Nat)
    (hsz : 2 ≤ g.size) (hd : distSymm g) (hp : penSymm g)
    (hnb : nb.Perm (List.range g.size)) :
    ∀ (fuel : Nat) (r r' : Route), r.path.Perm (List.range g.size) →
      r.cost = penCost g lam r.path →
      local_searchN g fuel r nb lam lam = some r' →
      r'.path.Perm (List.range g.size) ∧ r'.cost = penCost g lam r'.path := by
  intro fuel
  induction fuel with
  | zero => intro r r' _ _ h; exact absurd h (by simp [local_searchN])
  | succ fuel ih =>
      intro r r' hr hc h
      rw [local_searchN_succ] at h
      have hstep := step_preserves g lam nb r hsz hd hp hnb hr hc
      by_cases hz : (local_search_step g r nb lam lam).2 = 0
      · rw [if_pos hz] at h
        cases h
        exact hstep
      · rw [if_neg hz] at h
        exact ih _ _ hstep.1 hstep.2 h

set_option maxHeartbeats 800000 in
theorem foldMin_spec (f : Nat → Int) :
    ∀ (l : List Nat) (n : Nat) (acc : Nat × Nat),
      (f ((l.enumFrom n).foldl (fun x y => if f y.2 < f x.2 then y else x) acc).2
          ≤ f acc.2 ∧
        ∀ m, m < l.length →
          f ((l.enumFrom n).foldl (fun x y => if f y.2 < f x.2 then y else x) acc).2
            ≤ f (l.getD m 0)) ∧
      ((l.enumFrom n).foldl (fun x y => if f y.2 < f x.2 then y else x) acc = acc ∨
        ∃ m, m < l.length ∧
          (l.enumFrom n).foldl (fun x y => if f y.2 < f x.2 then y else x) acc
            = (n + m, l.getD m 0) ∧
          f (l.getD m 0) < f acc.2 ∧
          ∀ m', m' < m → f (l.getD m 0) < f (l.getD m' 0)) := by
  intro l
  induction l with
  | nil =>
      intro n acc
      exact ⟨⟨le_refl _, fun m hm => absurd hm (by simp)⟩, Or.inl rfl⟩
  | cons v tl ih =>
      intro n acc
      have hunf : (List.enumFrom n (v :: tl)).foldl
          (fun x y => if f y.2 < f x.2 then y else x) acc
          = (tl.enumFrom (n + 1)).foldl (fun x y => if f y.2 < f x.2 then y else x)
            (if f v < f acc.2 then (n, v) else acc) := rfl
      rw [hunf]
      by_cases hv : f v < f acc.2
      · rw [if_pos hv]
        obtain ⟨⟨hle, hmin⟩, hcases⟩ := ih (n + 1) (n, v)
        constructor
        · constructor
          · exact le_of_lt (lt_of_le_of_lt hle hv)
          · intro m hm
            cases m with
            | zero => exact hle
            | succ m => exact hmin m (by simp at hm; omega)
        · rcases hcases with heq | ⟨m, hm, heq, hlt, hfirst⟩
          · right
            refine ⟨0, by simp, ?_, hv, fun m' hm' => absurd hm' (by omega)⟩
            rw [heq]
            show ((n, v) : Nat × Nat) = (n + 0, v)
            simp
          · right
            refine ⟨m + 1, by simp at hm ⊢; omega, ?_, lt_trans hlt hv, ?_⟩
            · rw [heq]
              show ((n + 1 + m, tl.getD m 0) : Nat × Nat) = (n + (m + 1), tl.getD m 0)
              refine congrArg (fun z => (z, tl.getD m 0)) (by omega)
            · intro m' hm'
              cases m' with
              | zero => exact hlt
              | succ m' => exact hfirst m' (by omega)
      · rw [if_neg hv]
        obtain ⟨⟨hle, hmin⟩, hcases⟩ := ih (n + 1) acc
        have hvge : f acc.2 ≤ f v := not_lt.mp hv
        constructor
        · constructor
          · exact hle
          · intro m hm
            cases m with
            | zero => exact le_trans hle hvge
            | succ m => exact hmin m (by simp at hm; omega)
        · rcases hcases with heq | ⟨m, hm, heq, hlt, hfirst⟩
          · exact Or.inl heq
          · right
            refine ⟨m + 1, by simp at hm ⊢; omega, ?_, hlt, ?_⟩
            · rw [heq]
              show ((n + 1 + m, tl.getD m 0) : Nat × Nat) = (n + (m + 1), tl.getD m 0)
              refine congrArg (fun z => (z, tl.getD m 0)) (by omega)
            · intro m' hm'
              cases m' with
              | zero => exact lt_of_lt_of_le hlt hvge
              | succ m' => exact hfirst m' (by omega)

theorem minByRust_spec (f : Nat → Int) (rem : List Nat) (hne : rem ≠ []) :
    ∃ idx, idx < rem.length ∧
      minByRust f rem.enum = some (idx, rem.getD idx 0) ∧
      (∀ m, m < rem.length → f (rem.getD idx 0) ≤ f (rem.getD m 0)) ∧
      (∀ m', m' < idx → f (rem.getD idx 0) < f (rem.getD m' 0)) := by
  cases rem with
  | nil => exact absurd rfl hne
  | cons v tl =>
      have hunf : minByRust f (v :: tl).enum =
          some ((tl.enumFrom 1).foldl (fun x y => if f y.2 < f x.2 then y else x)
            (0, v)) := rfl
      obtain ⟨⟨hle, hmin⟩, hcases⟩ := foldMin_spec f tl 1 (0, v)
      rcases hcases with heq | ⟨m, hm, heq, hlt, hfirst⟩
      · refine ⟨0, by simp, ?_, ?_, fun m' hm' => absurd hm' (by omega)⟩
        · rw [hunf, heq]
          simp
        · intro m hm2
          cases m with
          | zero => exact le_refl _
          | succ m =>
              have := hmin m (by simp at hm2; omega)
              rw [heq] at this
              exact this
      · refine ⟨m + 1, by simp at hm ⊢; omega, ?_, ?_, ?_⟩
        · rw [hunf, heq]
          show some ((1 + m, tl.getD m 0) : Nat × Nat) = some (m + 1, tl.getD m 0)
          refine congrArg (fun z => some ((z, tl.getD m 0) : Nat × Nat)) (by omega)
        · intro m2 hm2
          cases m2 with
          | zero => exact le_of_lt hlt
          | succ m2 =>
              have := hmin m2 (by simp at hm2; omega)
              rw [heq] at this
              exact this
        · intro m' hm'
          cases m' with
          | zero => exact hlt
          | succ m' => exact hfirst m' (by omega)

theorem firstMinIdx_spec (f : Nat → Int) :
    ∀ rem : List Nat, rem ≠ [] →
      firstMinIdx f rem < rem.length ∧
      (∀ m, m < rem.length →
        f (rem.getD (firstMinIdx f rem) 0) ≤ f (rem.getD m 0)) ∧
      (∀ m', m' < firstMinIdx f rem →
        f (rem.getD (firstMinIdx f rem) 0) < f (rem.getD m' 0)) := by
  intro rem
  induction rem with
  | nil => intro h; exact absurd rfl h
  | cons v tl ih =>
      intro _
      cases tl with
      | nil =>
          refine ⟨by simp [firstMinIdx], ?_, ?_⟩
          · intro m hm
            cases m with
            | zero => exact le_refl _
            | succ m =>
                have hm' : m + 1 < 1 := hm
                omega
          · intro m' hm'
            have : m' < 0 := hm'
            omega
      | cons w tl' =>
          obtain ⟨hlt, hmin, hfirst⟩ := ih (by simp)
          have hunf : firstMinIdx f (v :: w :: tl')
              = if f ((w :: tl').getD (firstMinIdx f (w :: tl')) 0) < f v
                then firstMinIdx f (w :: tl') + 1 else 0 := rfl
          by_cases hc : f ((w :: tl').getD (firstMinIdx f (w :: tl')) 0) < f v
          · rw [hunf, if_pos hc]
            refine ⟨Nat.succ_lt_succ hlt, ?_, ?_⟩
            · intro m hm
              cases m with
              | zero => exact le_of_lt hc
              | succ m => exact hmin m (Nat.lt_of_succ_lt_succ hm)
            · intro m' hm'
              cases m' with
              | zero => exact hc
              | succ m' => exact hfirst m' (by omega)
          · rw [hunf, if_neg hc]
            have hvle : f v ≤ f ((w :: tl').getD (firstMinIdx f (w :: tl')) 0) :=
              not_lt.mp hc
            refine ⟨by simp, ?_, ?_⟩
            · intro m hm
              cases m with
              | zero => exact le_refl _
              | succ m => exact le_trans hvle (hmin m (Nat.lt_of_succ_lt_succ hm))
            · intro m' hm'
              omega

theorem minByRust_eq_firstMin (f : Nat → Int) (rem : List Nat) (hne : rem ≠ []) :
    minByRust f rem.enum
      = some (firstMinIdx f rem, rem.getD (firstMinIdx f rem) 0) := by
  obtain ⟨idx, hlt, heq, hmin, hfirst⟩ := minByRust_spec f rem hne
  obtain ⟨hlt2, hmin2, hfirst2⟩ := firstMinIdx_spec f rem hne
  have hii : idx = firstMinIdx f rem := by
    rcases Nat.lt_trichotomy idx (firstMinIdx f rem) with h | h | h
    · have h1 := hfirst2 idx h
      have h2 := hmin (firstMinIdx f rem) hlt2
      omega
    · exact h
    · have h1 := hfirst (firstMinIdx f rem) h
      have h2 := hmin2 idx hlt
      omega
  rw [heq, hii]

theorem nnAux_cons (g : GuidedLocalSearch) (steps i : Nat) (rem res : List Nat)
    (idx nb : Nat) (h : minByRust (fun n => g.get i n) rem.enum = some (idx, nb)) :
    nnAux g (steps + 1) i rem res
      = nnAux g steps (i + 1) (rem.eraseIdx idx) (res.set (i + 1) nb) := by
  show (match minByRust (fun n => g.get i n) rem.enum with
    | none => res
    | some (remainder, neighbor) =>
        nnAux g steps (i + 1) (rem.eraseIdx remainder)
          (res.set (i + 1) neighbor)) = _
  rw [h]

theorem nnAux_eq_nnSpecAux (g : GuidedLocalSearch) :
    ∀ steps i (rem res : List Nat),
      nnAux g steps i rem res = nnSpecAux g steps i rem res := by
  intro steps
  induction steps with
  | zero => intro i rem res; rfl
  | succ steps ih =>
      intro i rem res
      cases rem with
      | nil => rfl
      | cons v tl =>
          rw [nnAux_cons g steps i (v :: tl) res
            (firstMinIdx (fun n => g.get i n) (v :: tl))
            ((v :: tl).getD (firstMinIdx (fun n => g.get i n) (v :: tl)) 0)
            (minByRust_eq_firstMin (fun n => g.get i n) (v :: tl) (by simp))]
          exact ih (i + 1) _ _

theorem nnAux_getv_zero (g : GuidedLocalSearch) :
    ∀ steps i (rem res : List Nat), getv (nnAux g steps i rem res) 0 = getv res 0 := by
  intro steps
  induction steps with
  | zero => intro i rem res; rfl
  | succ steps ih =>
      intro i rem res
      cases rem with
      | nil => rfl
      | cons v tl =>
          rw [nnAux_cons g steps i (v :: tl) res
            (firstMinIdx (fun n => g.get i n) (v :: tl))
            ((v :: tl).getD (firstMinIdx (fun n => g.get i n) (v :: tl)) 0)
            (minByRust_eq_firstMin (fun n => g.get i n) (v :: tl) (by simp))]
          rw [ih, getv_set, if_neg (by omega)]

theorem take_succ_set (res : List Nat) (p w : Nat) (hp : p < res.length) :
    (res.set p w).take (p + 1) = res.take p ++ [w] := by
  have hlt : (res.take p).length = p := by
    rw [List.length_take]; omega
  apply listEqOfGetv
  · rw [List.length_take, List.length_set, List.length_append, hlt]
    simp only [List.length_cons, List.length_nil]
    omega
  · intro k hk
    have hk' : k < p + 1 := by
      rw [List.length_take, List.length_set] at hk
      omega
    rw [getv_take _ _ _ hk', getv_set, getv_append, hlt]
    by_cases hkp : k < p
    · rw [if_neg (by omega), if_pos hkp, getv_take _ _ _ hkp]
    · have hkp' : k = p := by omega
      subst hkp'
      rw [if_pos ⟨rfl, hp⟩, if_neg (by omega)]
      show w = getv [w] (k - k)
      rw [Nat.sub_self]
      rfl

theorem nnAux_perm (g : GuidedLocalSearch) :
    ∀ (steps i : Nat) (rem res : List Nat), steps = rem.length →
      res.length = g.size → i + 1 + rem.length = g.size →
      (res.take (i + 1) ++ rem).Perm (List.range g.size) →
      (nnAux g steps i rem res).Perm (List.range g.size) := by
  intro steps
  induction steps with
  | zero =>
      intro i rem res hsteps hres hsz hperm
      have hrem : rem = [] := by
        cases rem with
        | nil => rfl
        | cons v tl => exact absurd hsteps (by simp)
      subst hrem
      show res.Perm (List.range g.size)
      have ht : res.take (i + 1) = res := List.take_of_length_le (by omega)
      rw [ht, List.append_nil] at hperm
      exact hperm
  | succ steps ih =>
      intro i rem res hsteps hres hsz hperm
      cases rem with
      | nil => exact absurd hsteps (by simp)
      | cons v tl =>
          have hlen : (v :: tl).length = tl.length + 1 := rfl
          obtain ⟨idx, hlt, heq, hA, hB⟩ :=
            minByRust_spec (fun n => g.get i n) (v :: tl) (by simp)
          rw [nnAux_cons g steps i (v :: tl) res idx ((v :: tl).getD idx 0) heq]
          have hi1 : i + 1 < res.length := by omega
          have herase : (v :: tl).eraseIdx idx
              = (v :: tl).take idx ++ (v :: tl).drop (idx + 1) :=
            List.eraseIdx_eq_take_drop_succ (v :: tl) idx
          have hsplit : (v :: tl)
              = (v :: tl).take idx ++ (v :: tl).getD idx 0 :: (v :: tl).drop (idx + 1) := by
            conv_lhs => rw [← List.take_append_drop idx (v :: tl)]
            congr 1
            rw [List.drop_eq_getElem_cons hlt]
            congr 1
            rw [List.getD_eq_getElem _ 0 hlt]
          have htk : (res.set (i + 1) ((v :: tl).getD idx 0)).take (i + 1 + 1)
              = res.take (i + 1) ++ [(v :: tl).getD idx 0] :=
            take_succ_set res (i + 1) ((v :: tl).getD idx 0) hi1
          apply ih (i + 1) ((v :: tl).eraseIdx idx)
            (res.set (i + 1) ((v :: tl).getD idx 0))
          · rw [herase, List.length_append, List.length_take, List.length_drop]
            omega
          · rw [List.length_set]
            exact hres
          · rw [herase, List.length_append, List.length_take, List.length_drop]
            omega
          · rw [htk, herase]
            have h1 : ((res.take (i + 1) ++ [(v :: tl).getD idx 0])
                ++ ((v :: tl).take idx ++ (v :: tl).drop (idx + 1)))
                = res.take (i + 1) ++ ((v :: tl).getD idx 0
                    :: ((v :: tl).take idx ++ (v :: tl).drop (idx + 1))) := by
              rw [List.append_assoc]
              rfl
            rw [h1]
            refine List.Perm.trans (List.Perm.append_left (res.take (i + 1)) ?_) hperm
            have h2 : ((v :: tl).getD idx 0
                :: ((v :: tl).take idx ++ (v :: tl).drop (idx + 1))).Perm
                ((v :: tl).take idx ++ (v :: tl).getD idx 0 :: (v :: tl).drop (idx + 1)) :=
              List.perm_middle.symm
            rw [← hsplit] at h2
            exact h2

theorem nearest_neighbor_perm (g : GuidedLocalSearch) (h : 1 ≤ g.size) :
    g.nearest_neighbor.path.Perm (List.range g.size) := by
  show (nnAux g (g.size - 1) 0 (List.range' 1 (g.size - 1))
    (List.replicate g.size 0)).Perm _
  apply nnAux_perm
  · rw [List.length_range']
  · rw [List.length_replicate]
  · rw [List.length_range']; omega
  · have h1 : (List.replicate g.size 0).take 1 = [0] := by
      rw [List.take_replicate, Nat.min_eq_left h]
      rfl
    have h2 : List.range g.size = 0 :: List.range' 1 (g.size - 1) := by
      obtain ⟨k, hk⟩ : ∃ k, g.size = k + 1 := ⟨g.size - 1, by omega⟩
      rw [List.range_eq_range', hk]
      rfl
    rw [h1, h2]
    exact List.Perm.refl _

theorem flat_index_inj (size x y i j : Nat) (hy : y < size) (hj : j < size)
    (h : x * size + y = i * size + j) : x = i ∧ y = j := by
  have h0 : 0 < size := by omega
  have e1 : (x * size + y) / size = x := by
    rw [Nat.add_comm, Nat.mul_comm, Nat.add_mul_div_left y x h0,
      Nat.div_eq_of_lt hy]
    omega
  have e2 : (i * size + j) / size = i := by
    rw [Nat.add_comm, Nat.mul_comm, Nat.add_mul_div_left j i h0,
      Nat.div_eq_of_lt hj]
    omega
  have hxi : x = i := by rw [← e1, ← e2, h]
  subst hxi
  exact ⟨rfl, by omega⟩

theorem flat_index_lt (size x y : Nat) (hx : x < size) (hy : y < size) :
    x * size + y < size * size := by
  have h1 : (x + 1) * size = x * size + size := by ring
  have h2 : (x + 1) * size ≤ size * size := Nat.mul_le_mul_right size (by omega)
  omega

theorem getz_set (l : List Int) (i : Nat) (v : Int) (k : Nat) :
    getz (l.set i v) k = if i = k ∧ i < l.length then v else getz l k := by
  simp only [getz, List.getD_eq_getElem?_getD, List.getElem?_set]
  by_cases h1 : i = k
  · subst h1
    by_cases h2 : i < l.length
    · simp [h2]
    · simp [h2, List.getElem?_eq_none (by omega : l.length ≤ i)]
  · simp [h1]

theorem getz_pairset (d : Nat → Nat → Int) (size i j : Nat) (m : List Int)
    (hm : m.length = size * size) (hi : i < size) (hj : j < size) (hij : i ≠ j)
    (x y : Nat) (hx : x < size) (hy : y < size) :
    getz ((m.set (i * size + j) (d i j)).set (j * size + i) (d i j)) (x * size + y)
      = if x = i ∧ y = j then d i j
        else if x = j ∧ y = i then d i j
        else getz m (x * size + y) := by
  rw [getz_set, getz_set, List.length_set, hm]
  by_cases hc1 : x = i ∧ y = j
  · obtain ⟨h1, h2⟩ := hc1
    subst h1
    subst h2
    have hA : ¬(y * size + x = x * size + y ∧ y * size + x < size * size) := by
      intro hcon
      obtain ⟨a, b⟩ := flat_index_inj size y x x y hx hy hcon.1
      omega
    rw [if_neg hA, if_pos ⟨rfl, flat_index_lt size x y hx hy⟩, if_pos ⟨rfl, rfl⟩]
  · rw [if_neg hc1]
    by_cases hc2 : x = j ∧ y = i
    · obtain ⟨h1, h2⟩ := hc2
      subst h1
      subst h2
      rw [if_pos ⟨rfl, flat_index_lt size x y hx hy⟩, if_pos ⟨rfl, rfl⟩]
    · have hA : ¬(j * size + i = x * size + y ∧ j * size + i < size * size) := by
        intro hcon
        obtain ⟨a, b⟩ := flat_index_inj size j i x y hi hy hcon.1
        exact hc2 ⟨a.symm, b.symm⟩
      have hB : ¬(i * size + j = x * size + y ∧ i * size + j < size * size) := by
        intro hcon
        obtain ⟨a, b⟩ := flat_index_inj size i j x y hj hy hcon.1
        exact hc1 ⟨a.symm, b.symm⟩
      rw [if_neg hc2, if_neg hA, if_neg hB]

theorem inner_char (d : Nat → Nat → Int) (size i : Nat) (hi : i < size) :
    ∀ (J : List Nat) (m : List Int), m.length = size * size →
      (∀ j ∈ J, j < size ∧ i < j) →
      ∀ x y, x < size → y < size →
        getz (J.foldl
          (fun m' j => ((m'.set (i * size + j) (d i j)).set (j * size + i) (d i j)))
          m) (x * size + y)
        = if x = i ∧ y ∈ J then d i y
          else if y = i ∧ x ∈ J then d i x
          else getz m (x * size + y) := by
  intro J
  induction J with
  | nil =>
      intro m hm hJ x y hx hy
      simp
  | cons j J' ih =>
      intro m hm hJ x y hx hy
      obtain ⟨hjs, hij⟩ := hJ j (by simp)
      have hJ' : ∀ j' ∈ J', j' < size ∧ i < j' := fun j' hj' => hJ j' (by simp [hj'])
      have hm1 : ((m.set (i * size + j) (d i j)).set (j * size + i) (d i j)).length
          = size * size := by
        rw [List.length_set, List.length_set]; exact hm
      rw [List.foldl_cons, ih _ hm1 hJ' x y hx hy,
        getz_pairset d size i j m hm hi hjs (by omega) x y hx hy]
      by_cases c1 : x = i ∧ y ∈ J'
      · rw [if_pos c1, if_pos ⟨c1.1, List.mem_cons_of_mem j c1.2⟩]
      · rw [if_neg c1]
        by_cases c2 : y = i ∧ x ∈ J'
        · have hn1 : ¬(x = i ∧ y ∈ j :: J') := by
            intro hcon
            have := (hJ' x c2.2).2
            omega
          rw [if_pos c2, if_neg hn1, if_pos ⟨c2.1, List.mem_cons_of_mem j c2.2⟩]
        · rw [if_neg c2]
          by_cases c3 : x = i ∧ y = j
          · rw [if_pos c3, if_pos ⟨c3.1, by rw [c3.2]; exact List.mem_cons_self j J'⟩,
              c3.2]
          · rw [if_neg c3]
            by_cases c4 : x = j ∧ y = i
            · have hn2 : ¬(x = i ∧ y ∈ j :: J') := by
                intro hcon
                have h1 := c4.1
                have h2 := hcon.1
                omega
              rw [if_pos c4, if_neg hn2,
                if_pos ⟨c4.2, by rw [c4.1]; exact List.mem_cons_self j J'⟩, c4.1]
            · have hn3 : ¬(x = i ∧ y ∈ j :: J') := by
                intro hcon
                rcases List.mem_cons.mp hcon.2 with h | h
                · exact c3 ⟨hcon.1, h⟩
                · exact c1 ⟨hcon.1, h⟩
              have hn4 : ¬(y = i ∧ x ∈ j :: J') := by
                intro hcon
                rcases List.mem_cons.mp hcon.2 with h | h
                · exact c4 ⟨h, hcon.1⟩
                · exact c2 ⟨hcon.1, h⟩
              rw [if_neg c4, if_neg hn3, if_neg hn4]

theorem pairset_foldl_length (d : Nat → Nat → Int) (size i : Nat) :
    ∀ (J : List Nat) (m : List Int),
      (J.foldl
        (fun m' j => ((m'.set (i * size + j) (d i j)).set (j * size + i) (d i j)))
        m).length = m.length := by
  intro J
  induction J with
  | nil => intro m; rfl
  | cons j J' ih =>
      intro m
      rw [List.foldl_cons, ih, List.length_set, List.length_set]

set_option maxHeartbeats 800000 in
theorem outer_char (d : Nat → Nat → Int) (size : Nat)
    (hd : ∀ a b : Nat, d a b = d b a) :
    ∀ (I : List Nat) (m : List Int), m.length = size * size →
      (∀ i0 ∈ I, i0 < size) →
      ∀ x y, x < size → y < size →
        getz (I.foldl
          (fun m0 i =>
            (List.range' (i + 1) (size - (i + 1))).foldl
              (fun m' j =>
                ((m'.set (i * size + j) (d i j)).set (j * size + i) (d i j)))
              m0)
          m) (x * size + y)
        = if min x y ∈ I ∧ x ≠ y then d x y else getz m (x * size + y) := by
  intro I
  induction I with
  | nil =>
      intro m hm hI x y hx hy
      simp
  | cons i0 I' ih =>
      intro m hm hI x y hx hy
      have hi0 : i0 < size := hI i0 (by simp)
      have hI' : ∀ i1 ∈ I', i1 < size := fun i1 h => hI i1 (by simp [h])
      have hJ : ∀ j ∈ List.range' (i0 + 1) (size - (i0 + 1)), j < size ∧ i0 < j := by
        intro j hj
        rw [List.mem_range'_1] at hj
        omega
      rw [List.foldl_cons,
        ih _ (by rw [pairset_foldl_length]; exact hm) hI' x y hx hy,
        inner_char d size i0 hi0 _ m hm hJ x y hx hy]
      by_cases hxy : x = y
      · have hn1 : ¬(min x y ∈ I' ∧ x ≠ y) := by tauto
        have hn2 : ¬(min x y ∈ i0 :: I' ∧ x ≠ y) := by tauto
        have hn3 : ¬(x = i0 ∧ y ∈ List.range' (i0 + 1) (size - (i0 + 1))) := by
          intro hcon
          have := (hJ y hcon.2).2
          omega
        have hn4 : ¬(y = i0 ∧ x ∈ List.range' (i0 + 1) (size - (i0 + 1))) := by
          intro hcon
          have := (hJ x hcon.2).2
          omega
        rw [if_neg hn1, if_neg hn2, if_neg hn3, if_neg hn4]
      · by_cases hmem : min x y ∈ I'
        · rw [if_pos ⟨hmem, hxy⟩, if_pos ⟨List.mem_cons_of_mem i0 hmem, hxy⟩]
        · rw [if_neg (by tauto : ¬(min x y ∈ I' ∧ x ≠ y))]
          by_cases hm0 : min x y = i0
          · rcases Nat.lt_or_ge x y with hlt | hge
            · have hxi0 : x = i0 := by omega
              rw [if_pos ⟨hxi0, by rw [List.mem_range'_1]; omega⟩,
                if_pos ⟨by rw [hm0]; exact List.mem_cons_self i0 I', hxy⟩, hxi0]
            · have hyx : y < x := by omega
              have hyi0 : y = i0 := by omega
              have hn5 : ¬(x = i0 ∧ y ∈ List.range' (i0 + 1) (size - (i0 + 1))) := by
                intro hcon
                have h1 := hcon.1
                omega
              rw [if_neg hn5, if_pos ⟨hyi0, by rw [List.mem_range'_1]; omega⟩,
                if_pos ⟨by rw [hm0]; exact List.mem_cons_self i0 I', hxy⟩, hyi0]
              exact hd i0 x
          · have hn6 : ¬(min x y ∈ i0 :: I' ∧ x ≠ y) := by
              intro hcon
              rcases List.mem_cons.mp hcon.1 with h | h
              · exact hm0 h
              · exact hmem h
            have hn7 : ¬(x = i0 ∧ y ∈ List.range' (i0 + 1) (size - (i0 + 1))) := by
              intro hcon
              have h2 := (hJ y hcon.2).2
              omega
            have hn8 : ¬(y = i0 ∧ x ∈ List.range' (i0 + 1) (size - (i0 + 1))) := by
              intro hcon
              have h2 := (hJ x hcon.2).2
              omega
            rw [if_neg hn6, if_neg hn7, if_neg hn8]

theorem getz_replicate (n : Nat) (k : Nat) : getz (List.replicate n 0) k = 0 := by
  simp only [getz, List.getD_eq_getElem?_getD, List.getElem?_replicate]
  by_cases h : k < n
  · simp [h]
  · simp [h]

theorem Point.dist_symm (p q : Point) : Point.dist p q = Point.dist q p := by
  show Int.ofNat (natSqrt ((p.x - q.x) * (p.x - q.x)
      + (p.y - q.y) * (p.y - q.y)).toNat)
    = Int.ofNat (natSqrt ((q.x - p.x) * (q.x - p.x)
      + (q.y - p.y) * (q.y - p.y)).toNat)
  rw [show (p.x - q.x) * (p.x - q.x) + (p.y - q.y) * (p.y - q.y)
      = (q.x - p.x) * (q.x - p.x) + (q.y - p.y) * (q.y - p.y) from by ring]

theorem Point.dist_self (p : Point) : Point.dist p p = 0 := by
  show Int.ofNat (natSqrt ((p.x - p.x) * (p.x - p.x)
      + (p.y - p.y) * (p.y - p.y)).toNat) = 0
  rw [show (p.x - p.x) * (p.x - p.x) + (p.y - p.y) * (p.y - p.y) = 0 from by ring]
  rfl

theorem glsData_getz (points : List Point) (x y : Nat)
    (hx : x < points.length) (hy : y < points.length) :
    getz (glsData points) (x * points.length + y)
      = Point.dist (points.getD x ⟨0, 0⟩) (points.getD y ⟨0, 0⟩) := by
  have hd : ∀ a b : Nat,
      Point.dist (points.getD a ⟨0, 0⟩) (points.getD b ⟨0, 0⟩)
        = Point.dist (points.getD b ⟨0, 0⟩) (points.getD a ⟨0, 0⟩) :=
    fun a b => Point.dist_symm _ _
  have h := outer_char
    (fun a b => Point.dist (points.getD a ⟨0, 0⟩) (points.getD b ⟨0, 0⟩))
    points.length hd (List.range points.length)
    (List.replicate (points.length * points.length) 0)
    (by rw [List.length_replicate]) (by intro i0 h; rwa [List.mem_range] at h)
    x y hx hy
  have hgl : getz (glsData points) (x * points.length + y)
      = if min x y ∈ List.range points.length ∧ x ≠ y
        then Point.dist (points.getD x ⟨0, 0⟩) (points.getD y ⟨0, 0⟩)
        else getz (List.replicate (points.length * points.length) 0)
          (x * points.length + y) := h
  rw [hgl]
  by_cases hxy : x = y
  · rw [if_neg (by tauto), getz_replicate, hxy, Point.dist_self]
  · rw [if_pos ⟨by rw [List.mem_range]; omega, hxy⟩]

theorem glsNew_some (points : List Point) (g : GuidedLocalSearch)
    (h : glsNew points = some g) :
    g.size = points.length ∧ g.data = glsData points ∧
      g.penalty = List.replicate (points.length * points.length) 0 ∧
      points.length ≠ 0 := by
  rw [glsNew] at h
  by_cases hz : points.length = 0
  · rw [if_pos hz] at h
    exact absurd h (by simp)
  · rw [if_neg hz] at h
    have hg := Option.some.inj h
    rw [← hg]
    exact ⟨rfl, rfl, rfl, hz⟩

theorem glsNew_get (points : List Point) (g : GuidedLocalSearch)
    (h : glsNew points = some g) (x y : Nat) (hx : x < g.size) (hy : y < g.size) :
    g.get x y = Point.dist (points.getD x ⟨0, 0⟩) (points.getD y ⟨0, 0⟩) := by
  obtain ⟨hsz, hdata, _, _⟩ := glsNew_some points g h
  rw [GuidedLocalSearch.get, GuidedLocalSearch.get_index, hdata, hsz]
  rw [hsz] at hx hy
  exact glsData_getz points x y hx hy

theorem glsNew_distSymm (points : List Point) (g : GuidedLocalSearch)
    (h : glsNew points = some g) : distSymm g := by
  intro x y hx hy
  rw [glsNew_get points g h x y hx hy, glsNew_get points g h y x hy hx]
  exact Point.dist_symm _ _

theorem glsNew_penSymm (points : List Point) (g : GuidedLocalSearch)
    (h : glsNew points = some g) : penSymm g := by
  obtain ⟨_, _, hpen, _⟩ := glsNew_some points g h
  intro x y hx hy
  rw [GuidedLocalSearch.penaltyAt, GuidedLocalSearch.penaltyAt, hpen,
    getz_replicate, getz_replicate]

theorem pathSumF_congr (f f' : Nat → Nat → Int) :
    ∀ l : List Nat, (∀ x y, x ∈ l → y ∈ l → f x y = f' x y) →
      pathSumF f l = pathSumF f' l := by
  intro l
  induction l with
  | nil => intro h; rfl
  | cons a tl ih =>
      intro h
      cases tl with
      | nil => rfl
      | cons b tl' =>
          show f a b + pathSumF f (b :: tl') = f' a b + pathSumF f' (b :: tl')
          rw [h a b (List.mem_cons_self a _)
              (List.mem_cons_of_mem a (List.mem_cons_self b _)),
            ih (fun x y hx hy =>
              h x y (List.mem_cons_of_mem a hx) (List.mem_cons_of_mem a hy))]

theorem cycSumF_congr (f f' : Nat → Nat → Int) (l : List Nat)
    (h : ∀ x y, x ∈ l → y ∈ l → f x y = f' x y) : cycSumF f l = cycSumF f' l := by
  cases l with
  | nil => rfl
  | cons a tl =>
      show pathSumF f ((a :: tl) ++ [a]) = pathSumF f' ((a :: tl) ++ [a])
      apply pathSumF_congr
      intro x y hx hy
      have hx' : x ∈ a :: tl := by
        rcases List.mem_append.mp hx with h1 | h1
        · exact h1
        · simp at h1
          simp [h1]
      have hy' : y ∈ a :: tl := by
        rcases List.mem_append.mp hy with h1 | h1
        · exact h1
        · simp at h1
          simp [h1]
      exact h x y hx' hy'

theorem solveWithOrder_eq (g : GuidedLocalSearch) (nb : List Nat) (fuel : Nat) :
    g.solveWithOrder nb fuel = local_searchN g fuel g.nearest_neighbor nb 0 0 := by
  cases h : local_searchN g fuel g.nearest_neighbor nb 0 0 with
  | none =>
      show (match local_searchN g fuel g.nearest_neighbor nb 0 0 with
        | none => none
        | some route => some route) = _
      rw [h]
  | some route =>
      show (match local_searchN g fuel g.nearest_neighbor nb 0 0 with
        | none => none
        | some route => some route) = _
      rw [h]

theorem solve_cost_exact (points : List Point) (seed fuel : Nat)
    (g : GuidedLocalSearch) (r : Route) (hg : glsNew points = some g)
    (h2 : 2 ≤ points.length) (hr : solveFromPoints points seed fuel = some r) :
    r.path.Perm (List.range g.size) ∧
    r.cost = cycSumF (fun x y =>
      Point.dist (points.getD x ⟨0, 0⟩) (points.getD y ⟨0, 0⟩)) r.path := by
  obtain ⟨hsz, hdata, hpen, hne⟩ := glsNew_some points g hg
  have hsz2 : 2 ≤ g.size := by omega
  have hswo : g.solveWithOrder (shuffleModel g.size seed) fuel = some r := by
    have heq : solveFromPoints points seed fuel
        = g.solveWithOrder (shuffleModel g.size seed) fuel := by
      show (match glsNew points with
        | none => none
        | some g0 => g0.solveWithOrder (shuffleModel g0.size seed) fuel) = _
      rw [hg]
    rw [← heq]
    exact hr
  rw [solveWithOrder_eq] at hswo
  have hnb := shuffleModel_perm g.size seed
  have hdsym := glsNew_distSymm points g hg
  have hpsym := glsNew_penSymm points g hg
  have hstart_perm : g.nearest_neighbor.path.Perm (List.range g.size) :=
    nearest_neighbor_perm g (by omega)
  have hlen : g.nearest_neighbor.path.length = g.size := by
    rw [hstart_perm.length_eq, List.length_range]
  have hne2 : g.nearest_neighbor.path ≠ [] := by
    intro hcon
    rw [hcon] at hlen
    simp at hlen
    omega
  have hstart_cost : g.nearest_neighbor.cost
      = penCost g 0 g.nearest_neighbor.path := by
    show g.sum_edges g.nearest_neighbor.path = _
    rw [sum_edges_eq_cycSumF g _ hne2, penCost, penEdge_zero]
  obtain ⟨hperm', hcost'⟩ := local_searchN_inv g 0 (shuffleModel g.size seed)
    hsz2 hdsym hpsym hnb fuel g.nearest_neighbor r hstart_perm hstart_cost hswo
  refine ⟨hperm', ?_⟩
  rw [hcost', penCost, penEdge_zero]
  apply cycSumF_congr
  intro x y hx hy
  exact glsNew_get points g hg x y
    (mem_lt_of_perm_range _ _ hperm' x hx)
    (mem_lt_of_perm_range _ _ hperm' y hy)

theorem getv_replicate (n k : Nat) : getv (List.replicate n 0) k = 0 := by
  simp only [getv, List.getD_eq_getElem?_getD, List.getElem?_replicate]
  by_cases h : k < n
  · simp [h]
  · simp [h]

/-- C1: what the code's `solve` actually does after the seeded shuffle — it
takes no step count, performs no penalisation round at all, and is exactly one
local search from the nearest-neighbour tour with both penalty factors `0`
(the `max_utility` value is computed once and only printed).  This contradicts
the specified `solve(seed, steps)` Guided-Local-Search procedure. -/
theorem c1_solve_is_single_unpenalised_search (g : GuidedLocalSearch)
    (nb : List Nat) (fuel : Nat) :
    g.solveWithOrder nb fuel = local_searchN g fuel g.nearest_neighbor nb 0 0 :=
  solveWithOrder_eq g nb fuel

/-- C2: for at least two points, the cost field of the route `solve` returns
equals the sum, over the cyclic edges of the path (closing edge included), of
the integer-truncated Euclidean distances of the input points — pure
distances, not penalised. -/
theorem c2_solve_cost_is_pure_distance_sum (points : List Point)
    (seed fuel : Nat) (g : GuidedLocalSearch) (r : Route)
    (hg : glsNew points = some g) (h2 : 2 ≤ points.length)
    (hr : solveFromPoints points seed fuel = some r) :
    r.cost = cycSumF (fun x y =>
      Point.dist (points.getD x ⟨0, 0⟩) (points.getD y ⟨0, 0⟩)) r.path :=
  (solve_cost_exact points seed fuel g r hg h2 hr).2

theorem c2_witness :
    rSolved.cost = cycSumF (fun x y =>
      Point.dist (pts4.getD x ⟨0, 0⟩) (pts4.getD y ⟨0, 0⟩)) rSolved.path :=
  c2_solve_cost_is_pure_distance_sum pts4 1 16 gls4 rSolved (by decide)
    (by decide) (by decide)

/-- C3 (amended): when `local_search` returns, no pair the step scans — the
pairs `(order[a], order[b])` with `b ≥ a + 2` over the shuffled order — has a
negative penalised delta.  This is weaker than the claimed 2-opt local
minimum: `skip = 1` excludes the pairs adjacent in the shuffled order (not
pairs adjacent in the tour), and an excluded exchange can still be strictly
improving (see the counterexample). -/
theorem c3_termination_no_scanned_improvement (g : GuidedLocalSearch)
    (nb : List Nat) (lam : Int) (fuel : Nat) (r r' : Route)
    (h : local_searchN g fuel r nb lam lam = some r') :
    ∀ p ∈ interpolate_edges nb 1, 0 ≤ deltaSpec g lam r' p.1 p.2 :=
  (scanFirst_none_iff g lam r' nb).mp (local_searchN_terminal g nb lam fuel r r' h)

theorem c3_witness : 0 ≤ deltaSpec gExC3 0 rExC3 0 1 :=
  c3_termination_no_scanned_improvement gExC3 [0, 2, 1, 3] 0 1 rExC3 rExC3
    (by decide) (0, 1) (by decide)

/-- C3 counterexample: with the neighbourhood order `[0, 2, 1, 3]` the search
terminates (the step reports no improvement) on the tour `[0, 1, 2, 3]`, yet
the 2-opt exchange `twist(1, 2)` strictly decreases the penalised tour cost
(from 30 to 12): the returned route is not a 2-opt local minimum, because the
improving pair sits adjacent in the shuffled order and `skip = 1` never scans
it. -/
theorem c3_counterexample :
    local_searchN gExC3 1 rExC3 [0, 2, 1, 3] 0 0 = some rExC3 ∧
    penCost gExC3 0 (listTwist rExC3.path 1 2) < penCost gExC3 0 rExC3.path ∧
    1 < rExC3.path.length ∧ 2 < rExC3.path.length := by decide

/-- C4: each pass is the first-improvement scan of the spec: the step equals a
`find?` over `interpolate_edges order 1` (the pairs `(order[a], order[b])`
with `b ≥ a + 2` in lexicographic order) for the first negative penalised
delta, applying `twist(i+1 mod N, j)` and adding the delta to the cost; the
scan result is `none` exactly when every scanned pair has non-negative delta;
and the loop restarts from the whole scan after an improvement and stops
exactly on a no-improvement pass. -/
theorem c4_first_improvement_scan (g : GuidedLocalSearch) (r : Route)
    (nb : List Nat) (lam : Int) (fuel : Nat) :
    (local_search_step g r nb lam lam =
      match scanFirstSpec g lam r nb with
      | none => (r, 0)
      | some q => (r.twist ((q.1 + 1) % r.path.length) q.2
          (deltaSpec g lam r q.1 q.2), deltaSpec g lam r q.1 q.2)) ∧
    (scanFirstSpec g lam r nb = none ↔
      ∀ p ∈ interpolate_edges nb 1, 0 ≤ deltaSpec g lam r p.1 p.2) ∧
    (local_searchN g (fuel + 1) r nb lam lam =
      if (local_search_step g r nb lam lam).2 = 0
      then some (local_search_step g r nb lam lam).1
      else local_searchN g fuel (local_search_step g r nb lam lam).1 nb lam lam) :=
  ⟨local_search_step_eq_scan g r nb lam, scanFirst_none_iff g lam r nb,
    local_searchN_succ g fuel r nb lam lam⟩

/-- C5: a twist of a Hamiltonian path (a permutation of `0, …, n-1`), at any
in-range positions including the wrap-around case `i > j`, is still
Hamiltonian. -/
theorem c5_twist_keeps_hamiltonian (l : List Nat) (n i j : Nat)
    (hl : isHamiltonianOf l n) (hN : 2 ≤ l.length)
    (hi : i < l.length) (hj : j < l.length) :
    isHamiltonianOf (listTwist l i j) n :=
  (listTwist_perm l i j hi hj).trans hl

theorem c5_witness : isHamiltonianOf (listTwist [0, 1, 2, 3] 3 1) 4 :=
  c5_twist_keeps_hamiltonian [0, 1, 2, 3] 4 3 1 (by decide) (by decide)
    (by decide) (by decide)

/-- C6: the nearest-neighbour construction equals its spec-side reference —
`tour[0] = 0` and, at every loop index `i`, the next vertex is the remaining
candidate minimising the matrix row indexed by the loop counter `i` itself
(see `nnSpecAux`, which reads `self[(i, n)]`, not `self[(tour[i], n)]`), ties
broken at the smallest remaining-list index (`firstMinIdx`). -/
theorem c6_nearest_neighbor_matches_spec (g : GuidedLocalSearch) :
    g.nearest_neighbor.path = nearestNeighborSpecPath g ∧
    getv g.nearest_neighbor.path 0 = 0 := by
  constructor
  · exact nnAux_eq_nnSpecAux g (g.size - 1) 0 _ _
  · show getv (nnAux g (g.size - 1) 0 (List.range' 1 (g.size - 1))
      (List.replicate g.size 0)) 0 = 0
    rw [nnAux_getv_zero, getv_replicate]

/-- C7: applying `twist` twice with the same in-range indices — both the
`i ≤ j` branch and the wrap-around branch `i > j` — restores the original
path. -/
theorem c7_twist_involution (l : List Nat) (i j : Nat) (hN : 2 ≤ l.length)
    (hi : i < l.length) (hj : j < l.length) :
    listTwist (listTwist l i j) i j = l :=
  listTwist_involution l i j hi hj

theorem c7_witness : listTwist (listTwist [5, 6, 7, 8] 2 0) 2 0 = [5, 6, 7, 8] :=
  c7_twist_involution [5, 6, 7, 8] 2 0 (by decide) (by decide) (by decide)

/-- C8: `solve` is deterministic — the whole pipeline from points and seed
(seeded shuffle included, as modelled by `shuffleModel`) is a function, so two
invocations with the same points, seed and fuel return the same path and the
same cost. -/
theorem c8_solve_deterministic (points : List Point) (seed fuel : Nat)
    (r1 r2 : Route) (h1 : solveFromPoints points seed fuel = some r1)
    (h2 : solveFromPoints points seed fuel = some r2) :
    r1.path = r2.path ∧ r1.cost = r2.cost := by
  rw [h1] at h2
  have h3 := Option.some.inj h2
  rw [h3]
  exact ⟨rfl, rfl⟩

theorem c8_witness : rSolved.path = rSolved.path ∧ rSolved.cost = rSolved.cost :=
  c8_solve_deterministic pts4 1 16 rSolved rSolved (by decide) (by decide)

/-- C9 (amended): construction fails exactly on the empty input — the
`assert!(size > 0)` of `GuidedLocalSearch::new` rejects zero points only, and
a 1-point input is accepted (see the counterexample), contrary to the claimed
rejection of 1-point inputs. -/
theorem c9_new_rejects_exactly_empty (points : List Point) :
    glsNew points = none ↔ points = [] := by
  rw [glsNew]
  by_cases h : points.length = 0
  · rw [if_pos h]
    constructor
    · intro _
      exact List.length_eq_zero.mp h
    · intro _
      rfl
  · rw [if_neg h]
    constructor
    · intro hcon
      exact absurd hcon (by simp)
    · intro hcon
      rw [hcon] at h
      simp at h

/-- C9 counterexample: the 1-point input is accepted — `new` succeeds and
builds the degenerate 1×1 solver, with no panic in any build. -/
theorem c9_counterexample :
    glsNew [({ x := 0, y := 0 } : Point)]
      = some { size := 1, data := [0], penalty := [0] } := by decide

/-- C10: with symmetric distance and penalty matrices, whenever the two
scanned route positions are cyclically adjacent (`j = i+1 mod N` or
`i = j+1 mod N`), the computed `cost_change` is exactly `0` — never negative —
so a degenerate twist on adjacent positions is never applied even though the
shuffled order does present such position pairs to the scan. -/
theorem c10_adjacent_positions_zero_delta (g : GuidedLocalSearch) (r : Route)
    (lam : Int) (i j : Nat) (hd : distSymm g) (hp : penSymm g)
    (hr : r.path.Perm (List.range g.size)) (hi : i < r.path.length)
    (hj : j < r.path.length)
    (hadj : j = (i + 1) % r.path.length ∨ i = (j + 1) % r.path.length) :
    costChange g r i j lam lam = 0 := by
  have hN : 0 < r.path.length := by omega
  rw [costChange_eq_penEdge g r i j lam]
  rcases hadj with h | h
  · rw [h]
    ring
  · have hsym := penEdge_symm_on_path g lam r.path hr hd hp
    rw [h]
    rw [hsym (getv r.path ((j + 1) % r.path.length)) (getv r.path j)
        (getv_mem _ _ (Nat.mod_lt _ hN)) (getv_mem _ _ hj),
      hsym (getv r.path ((j + 1) % r.path.length))
        (getv r.path (((j + 1) % r.path.length + 1) % r.path.length))
        (getv_mem _ _ (Nat.mod_lt _ hN)) (getv_mem _ _ (Nat.mod_lt _ hN))]
    ring

theorem c10_witness : costChange gls4 { path := [0, 1, 2, 3], cost := 40 } 0 1 0 0 = 0 :=
  c10_adjacent_positions_zero_delta gls4 { path := [0, 1, 2, 3], cost := 40 }
    0 0 1 (glsNew_distSymm pts4 gls4 (by decide))
    (glsNew_penSymm pts4 gls4 (by decide)) (by decide) (by decide) (by decide)
    (Or.inl (by decide))
